import Mathlib

/-!
Shallow embedding of the Sway mid-level IR core (`src/sway-ir/src/instruction.rs`,
`src/sway-ir/src/block.rs`, `src/sway-ir/src/constant.rs`).

The arena-backed `Context` is modelled as lists indexed by plain naturals: a
generational-arena index becomes a `Nat`, arena reads become `List.getD` (the
Rust code panics on an invalid handle; theorems carry explicit validity
hypotheses instead), in-place mutation becomes `List.set`, and `FxHashSet`
becomes `Finset`.  Rust code paths that panic (`unwrap`, `panic!`,
`unreachable!`) are modelled with `Option`.
-/

namespace SwayIR

/-- Handle into the `values` arena (`Value(pub generational_arena::Index)`). -/
structure Value where
  idx : Nat
deriving DecidableEq, Repr

/-- Handle into the `blocks` arena (`Block(pub generational_arena::Index)`). -/
structure Block where
  idx : Nat
deriving DecidableEq, Repr

/-- Handle into the `functions` arena (`Function(pub generational_arena::Index)`). -/
structure Function where
  idx : Nat
deriving DecidableEq, Repr

/-- Modelled from the spec: `irtype.rs` is not under `src/`.  The spec (§2, §4.1)
describes an interned, structurally unique type system (`unit, bool, uint(n),
b256, string(len), array(elem,len), struct(fields)`, plus pointers), where a
handle identifies a unique structural type; so types are modelled as structural
values, with aggregate and pointer handles replaced by their structural content. -/
inductive Ty where
  | Unit
  | Bool
  | Uint (bits : Nat)
  | B256
  | StringTy (len : Nat)
  | Array (elem : Ty) (count : Nat)
  | Struct (fields : List Ty)
  | Pointer (pointee : Ty)

mutual
/-- Modelled from the spec: structural type equality (`Type::eq`), which under
interning (§4.1: two calls with equal arguments return equal handles) coincides
with equality of the structural unfoldings. -/
def tyEq : Ty → Ty → Bool
  | .Unit, .Unit => true
  | .Bool, .Bool => true
  | .Uint a, .Uint b => a == b
  | .B256, .B256 => true
  | .StringTy a, .StringTy b => a == b
  | .Array e1 n1, .Array e2 n2 => tyEq e1 e2 && n1 == n2
  | .Struct f1, .Struct f2 => tyListEq f1 f2
  | .Pointer p1, .Pointer p2 => tyEq p1 p2
  | _, _ => false

def tyListEq : List Ty → List Ty → Bool
  | [], [] => true
  | a :: as_, b :: bs => tyEq a b && tyListEq as_ bs
  | _, _ => false
end

/-- Modelled from the spec: `Type::strip_ptr_type` (`irtype.rs` is not under
`src/`); §3 gives `Load(ptr) → pointee`, so stripping a pointer type yields the
pointee and leaves any other type unchanged. -/
def Ty.strip_ptr_type : Ty → Ty
  | .Pointer t => t
  | t => t

/-- Modelled from the spec: a `Pointer` handle is identified with the pointee
type it denotes (`pointer.rs` is not under `src/`). -/
def Pointer := Ty

/-- Modelled from the spec: aggregate descriptors (`irtype.rs` is not under
`src/`); §2/glossary: the structural type of an array or struct. -/
inductive Aggregate where
  | Array (elem : Ty) (count : Nat)
  | Struct (fields : List Ty)

/-- Modelled from the spec: element type of an array aggregate
(`Aggregate::get_elem_type`). -/
def Aggregate.get_elem_type : Aggregate → Option Ty
  | .Array elem _ => some elem
  | .Struct _ => none

/-- Modelled from the spec: walking `indices` through nested struct fields
(`Aggregate::get_field_type`; §4.4 `ExtractValue` reads a field from (nested)
structs). -/
def tyFieldType : Ty → List Nat → Option Ty
  | t, [] => some t
  | t, i :: rest =>
    match t with
    | .Struct fields => (fields.get? i).bind (fun f => tyFieldType f rest)
    | _ => none

/-- Modelled from the spec: field type of a struct aggregate at a path of
indices. -/
def Aggregate.get_field_type (agg : Aggregate) (indices : List Nat) : Option Ty :=
  match agg with
  | .Array elem count => tyFieldType (.Array elem count) indices
  | .Struct fields => tyFieldType (.Struct fields) indices

/- ---------------------------------------------------------------------- -/
/- Constants (`src/sway-ir/src/constant.rs`)                              -/
/- ---------------------------------------------------------------------- -/

mutual
/-- `ConstantValue` from `constant.rs`: `Undef, Unit, Bool, Uint(u64),
B256([u8;32]), String(Vec<u8>), Array(Vec<Constant>), Struct(Vec<Constant>)`.
Byte arrays are modelled as `List Nat`. -/
inductive ConstantValue where
  | Undef
  | Unit
  | Bool (b : Bool)
  | Uint (n : Nat)
  | B256 (bytes : List Nat)
  | String (bytes : List Nat)
  | Array (elems : List Constant)
  | Struct (fields : List Constant)

/-- `Constant { ty: Type, value: ConstantValue }` from `constant.rs`. -/
inductive Constant where
  | mk (ty : Ty) (value : ConstantValue)
end

def Constant.ty : Constant → Ty
  | .mk t _ => t

def Constant.value : Constant → ConstantValue
  | .mk _ v => v

mutual
/-- `Constant::eq` from `constant.rs`: type equality, then a structural match on
the values with an early `false` whenever either side is `Undef`; array and
struct children are compared pairwise over `iter().zip(...)` (which truncates
to the shorter list) with `all`. -/
def Constant.eq : Constant → Constant → Bool
  | .mk ty1 v1, .mk ty2 v2 => tyEq ty1 ty2 && constantValueMatch v1 v2

/-- The `match (&self.value, &other.value)` arms of `Constant::eq`. -/
def constantValueMatch : ConstantValue → ConstantValue → Bool
  | .Undef, _ => false
  | _, .Undef => false
  | .Unit, .Unit => true
  | .Bool l, .Bool r => l == r
  | .Uint l, .Uint r => l == r
  | .B256 l, .B256 r => l == r
  | .String l, .String r => l == r
  | .Array l, .Array r => constantZipEq l r
  | .Struct l, .Struct r => constantZipEq l r
  | _, _ => false

/-- `l0.iter().zip(r0.iter()).all(|(l0, r0)| l0.eq(context, r0))`: pairwise
comparison over the zip of the two child lists, written as explicit recursion
(zip truncates to the shorter list, so any leftover children are ignored). -/
def constantZipEq : List Constant → List Constant → Bool
  | a :: as_, b :: bs => Constant.eq a b && constantZipEq as_ bs
  | _, _ => true
end

/- ---------------------------------------------------------------------- -/
/- Instructions (`src/sway-ir/src/instruction.rs`)                        -/
/- ---------------------------------------------------------------------- -/

/-- `AsmArg` (`asm.rs` is not under `src/`; §4.4: operands of an asm block are
declared via `AsmArg` initializers, where the initializer is optional). -/
structure AsmArg where
  name : String
  initializer : Option Value

/-- Modelled from the spec: `AsmBlock` (`asm.rs` is not under `src/`); §4.4:
the block is opaque and its return type is declared up front, so only the
declared return type is modelled. -/
structure AsmBlock where
  returnType : Ty

/-- `Register` from `instruction.rs`. -/
inductive Register where
  | Of | Pc | Ssp | Sp | Fp | Hp | Error | Ggas | Cgas | Bal | Is | Ret | Retl | Flag
deriving DecidableEq, Repr

/-- `Predicate` from `instruction.rs`. -/
inductive Predicate where
  | Equal
deriving DecidableEq, Repr

/-- `BinaryOpKind` from `instruction.rs`. -/
inductive BinaryOpKind where
  | Add | Sub | Mul | Div
deriving DecidableEq, Repr

/-- `BranchToWithArgs { block: Block, args: Vec<Value> }`. -/
structure BranchToWithArgs where
  block : Block
  args : List Value
deriving DecidableEq, Repr

/-- `FuelVmInstruction` from `instruction.rs`. -/
inductive FuelVmInstruction where
  | GetStorageKey
  | Gtf (index : Value) (tx_field_id : Nat)
  | Log (log_val : Value) (log_ty : Ty) (log_id : Value)
  | ReadRegister (reg : Register)
  | Revert (v : Value)
  | Smo (recipient_and_message message_size output_index coins : Value)
  | StateLoadQuadWord (load_val key : Value)
  | StateLoadWord (v : Value)
  | StateStoreQuadWord (stored_val key : Value)
  | StateStoreWord (stored_val key : Value)

/-- `Instruction` from `instruction.rs`. -/
inductive Instruction where
  | AddrOf (v : Value)
  | AsmBlock (asm : AsmBlock) (args : List AsmArg)
  | BinaryOp (op : BinaryOpKind) (arg1 arg2 : Value)
  | BitCast (v : Value) (ty : Ty)
  | Branch (to_block : BranchToWithArgs)
  | Call (callee : Function) (args : List Value)
  | Cmp (pred : Predicate) (lhs_value rhs_value : Value)
  | ConditionalBranch (cond_value : Value) (true_block false_block : BranchToWithArgs)
  | ContractCall (return_type : Ty) (name : String) (params coins asset_id gas : Value)
  | ExtractElement (array : Value) (ty : Aggregate) (index_val : Value)
  | ExtractValue (aggregate : Value) (ty : Aggregate) (indices : List Nat)
  | FuelVm (fuel_vm_instr : FuelVmInstruction)
  | GetPointer (base_ptr : Pointer) (ptr_ty : Pointer) (offset : Nat)
  | InsertElement (array : Value) (ty : Aggregate) (value index_val : Value)
  | InsertValue (aggregate : Value) (ty : Aggregate) (value : Value) (indices : List Nat)
  | IntToPtr (v : Value) (ty : Ty)
  | Load (v : Value)
  | MemCopy (dst_val src_val : Value) (byte_len : Nat)
  | Nop
  | Ret (v : Value) (ty : Ty)
  | Store (dst_val stored_val : Value)

/-- `Instruction::get_operands` from `instruction.rs` (lines 304-404). -/
def Instruction.get_operands : Instruction → List Value
  | .AddrOf v => [v]
  | .AsmBlock _ args => args.filterMap (fun aa => aa.initializer)
  | .BitCast v _ => [v]
  | .BinaryOp _ arg1 arg2 => [arg1, arg2]
  | .Branch to_block => to_block.args
  | .Call _ vs => vs
  | .Cmp _ lhs rhs => [lhs, rhs]
  | .ConditionalBranch cond_value true_block false_block =>
      cond_value :: (true_block.args ++ false_block.args)
  | .MemCopy dst_val src_val _ => [dst_val, src_val]
  | .ContractCall _ _ params coins asset_id gas => [params, coins, asset_id, gas]
  | .ExtractElement array _ index_val => [array, index_val]
  | .ExtractValue aggregate _ _ => [aggregate]
  | .FuelVm fvi =>
    match fvi with
    | .GetStorageKey => []
    | .Gtf index _ => [index]
    | .Log log_val _ log_id => [log_val, log_id]
    | .ReadRegister _ => []
    | .Revert v => [v]
    | .Smo recipient_and_message message_size output_index coins =>
        [recipient_and_message, message_size, output_index, coins]
    | .StateLoadQuadWord load_val key => [load_val, key]
    | .StateLoadWord key => [key]
    | .StateStoreQuadWord stored_val key => [stored_val, key]
    | .StateStoreWord stored_val key => [stored_val, key]
  | .GetPointer _ _ _ => []
  | .InsertElement array _ value index_val => [array, value, index_val]
  | .InsertValue aggregate _ value _ => [aggregate, value]
  | .IntToPtr v _ => [v]
  | .Load v => [v]
  | .Nop => []
  | .Ret v _ => [v]
  | .Store dst_val stored_val => [dst_val, stored_val]

/-- Lookup in the replacement map.  `FxHashMap<Value, Value>` is modelled as an
association list with first-match lookup (hash-map keys are unique, so one
match is all there is). -/
def mapGet (m : List (Value × Value)) (v : Value) : Option Value :=
  match m with
  | [] => none
  | (k, x) :: rest => if k = v then some x else mapGet rest v

/-- The `replace` closure of `Instruction::replace_values`:
`while let Some(new_val) = replace_map.get(val) { *val = *new_val; }`.
The unbounded while loop is modelled with explicit fuel; a run of the Rust loop
that terminates is a run with sufficiently large fuel, witnessed by
`mapGet m (chase m fuel v) = none`. -/
def chase (m : List (Value × Value)) : Nat → Value → Value
  | 0, v => v
  | fuel + 1, v =>
    match mapGet m v with
    | none => v
    | some w => chase m fuel w

/-- `Instruction::replace_values` from `instruction.rs` (lines 407-531).
Note the asymmetries present in the source: `Load(_) => ()` replaces nothing,
and `Store { stored_val, .. }` replaces only `stored_val`, not `dst_val`. -/
def Instruction.replace_values (fuel : Nat) (replace_map : List (Value × Value)) :
    Instruction → Instruction :=
  let replace := chase replace_map fuel
  fun i =>
    match i with
    | .AddrOf arg => .AddrOf (replace arg)
    | .AsmBlock asm args =>
        .AsmBlock asm (args.map (fun aa => { aa with initializer := aa.initializer.map replace }))
    | .BitCast value ty => .BitCast (replace value) ty
    | .BinaryOp op arg1 arg2 => .BinaryOp op (replace arg1) (replace arg2)
    | .Branch to_block => .Branch { to_block with args := to_block.args.map replace }
    | .Call callee args => .Call callee (args.map replace)
    | .Cmp pred lhs_val rhs_val => .Cmp pred (replace lhs_val) (replace rhs_val)
    | .ConditionalBranch cond_value true_block false_block =>
        .ConditionalBranch (replace cond_value)
          { true_block with args := true_block.args.map replace }
          { false_block with args := false_block.args.map replace }
    | .ContractCall return_type name params coins asset_id gas =>
        .ContractCall return_type name (replace params) (replace coins)
          (replace asset_id) (replace gas)
    | .GetPointer base_ptr ptr_ty offset => .GetPointer base_ptr ptr_ty offset
    | .InsertElement array ty value index_val =>
        .InsertElement (replace array) ty (replace value) (replace index_val)
    | .InsertValue aggregate ty value indices =>
        .InsertValue (replace aggregate) ty (replace value) indices
    | .ExtractElement array ty index_val =>
        .ExtractElement (replace array) ty (replace index_val)
    | .ExtractValue aggregate ty indices => .ExtractValue (replace aggregate) ty indices
    | .FuelVm fvi =>
      .FuelVm
        (match fvi with
         | .GetStorageKey => .GetStorageKey
         | .Gtf index tx_field_id => .Gtf (replace index) tx_field_id
         | .Log log_val log_ty log_id => .Log (replace log_val) log_ty (replace log_id)
         | .ReadRegister reg => .ReadRegister reg
         | .Revert revert_val => .Revert (replace revert_val)
         | .Smo recipient_and_message message_size output_index coins =>
             .Smo (replace recipient_and_message) (replace message_size)
               (replace output_index) (replace coins)
         | .StateLoadQuadWord load_val key => .StateLoadQuadWord (replace load_val) (replace key)
         | .StateLoadWord key => .StateLoadWord (replace key)
         | .StateStoreQuadWord stored_val key =>
             .StateStoreQuadWord (replace stored_val) (replace key)
         | .StateStoreWord stored_val key => .StateStoreWord (replace stored_val) (replace key))
    | .IntToPtr value ty => .IntToPtr (replace value) ty
    | .Load v => .Load v
    | .MemCopy dst_val src_val byte_len => .MemCopy (replace dst_val) (replace src_val) byte_len
    | .Nop => .Nop
    | .Ret ret_val ty => .Ret (replace ret_val) ty
    | .Store dst_val stored_val => .Store dst_val (replace stored_val)

/-- The operand slots `Instruction::replace_values` actually passes to its
`replace` closure, in call order; extracted arm by arm from the source of
`replace_values`.  It differs from `get_operands` at exactly `Load` (which
replaces nothing) and `Store` (which replaces only `stored_val`). -/
def Instruction.touched_operands : Instruction → List Value
  | .AddrOf v => [v]
  | .AsmBlock _ args => args.filterMap (fun aa => aa.initializer)
  | .BitCast v _ => [v]
  | .BinaryOp _ arg1 arg2 => [arg1, arg2]
  | .Branch to_block => to_block.args
  | .Call _ vs => vs
  | .Cmp _ lhs rhs => [lhs, rhs]
  | .ConditionalBranch cond_value true_block false_block =>
      cond_value :: (true_block.args ++ false_block.args)
  | .ContractCall _ _ params coins asset_id gas => [params, coins, asset_id, gas]
  | .GetPointer _ _ _ => []
  | .InsertElement array _ value index_val => [array, value, index_val]
  | .InsertValue aggregate _ value _ => [aggregate, value]
  | .ExtractElement array _ index_val => [array, index_val]
  | .ExtractValue aggregate _ _ => [aggregate]
  | .FuelVm fvi =>
    match fvi with
    | .GetStorageKey => []
    | .Gtf index _ => [index]
    | .Log log_val _ log_id => [log_val, log_id]
    | .ReadRegister _ => []
    | .Revert v => [v]
    | .Smo recipient_and_message message_size output_index coins =>
        [recipient_and_message, message_size, output_index, coins]
    | .StateLoadQuadWord load_val key => [load_val, key]
    | .StateLoadWord key => [key]
    | .StateStoreQuadWord stored_val key => [key, stored_val]
    | .StateStoreWord stored_val key => [key, stored_val]
  | .IntToPtr v _ => [v]
  | .Load _ => []
  | .MemCopy dst_val src_val _ => [dst_val, src_val]
  | .Nop => []
  | .Ret v _ => [v]
  | .Store _ stored_val => [stored_val]

/-- `Instruction::is_terminator` from `instruction.rs` (lines 570-578). -/
def Instruction.is_terminator : Instruction → Bool
  | .Branch _ => true
  | .ConditionalBranch _ _ _ => true
  | .Ret _ _ => true
  | .FuelVm (.Revert _) => true
  | _ => false

/-- `Instruction::may_have_side_effect` from `instruction.rs` (lines 533-568). -/
def Instruction.may_have_side_effect : Instruction → Bool
  | .AsmBlock _ _ => true
  | .Call _ _ => true
  | .ContractCall _ _ _ _ _ _ => true
  | .FuelVm (.Log _ _ _) => true
  | .FuelVm (.Smo _ _ _ _) => true
  | .FuelVm (.StateLoadQuadWord _ _) => true
  | .FuelVm (.StateStoreQuadWord _ _) => true
  | .FuelVm (.StateStoreWord _ _) => true
  | .MemCopy _ _ _ => true
  | .Store _ _ => true
  | .InsertElement _ _ _ _ => true
  | .InsertValue _ _ _ _ => true
  | _ => false

/- ---------------------------------------------------------------------- -/
/- Values, blocks, functions, context                                     -/
/- ---------------------------------------------------------------------- -/

/-- `BlockArgument { block, idx, ty }` from `block.rs` (lines 44-51). -/
structure BlockArgument where
  block : Block
  idx : Nat
  ty : Ty

/-- `ValueDatum`: one of `Argument`, `Constant`, `Instruction` (spec §2;
`value.rs` is not under `src/`, but the three variants are fixed by the
`ValueDatum` matches in `block.rs` and `instruction.rs`). -/
inductive ValueDatum where
  | Argument (arg : BlockArgument)
  | Constant (c : Constant)
  | Instruction (ins : Instruction)

/-- The `values` arena entry; only its `value` field is relevant here. -/
structure ValueContent where
  value : ValueDatum

instance : Inhabited ValueContent := ⟨⟨.Instruction .Nop⟩⟩

/-- `BlockContent` from `block.rs` (lines 31-42); `FxHashSet<Block>` becomes
`Finset Block`. -/
structure BlockContent where
  label : String
  function : Function
  instructions : List Value
  args : List Value
  preds : Finset Block

instance : Inhabited BlockContent := ⟨⟨"", ⟨0⟩, [], [], ∅⟩⟩

/-- Modelled from the spec: the slice of `FunctionContent` the block subsystem
uses (`function.rs` is not under `src/`); §3: name, ordered block list (entry
first), return type. -/
structure FunctionContent where
  name : String
  blocks : List Block
  return_type : Ty

instance : Inhabited FunctionContent := ⟨⟨"", [], .Unit⟩⟩

/-- The owning `Context` (§2): parallel arenas for values, blocks and
functions, modelled as lists indexed by the handle's `idx`. -/
structure Context where
  values : List ValueContent
  blocks : List BlockContent
  functions : List FunctionContent

/-- Arena read `context.values[v.0].value`. -/
def Context.valueDatum (ctx : Context) (v : Value) : ValueDatum :=
  (ctx.values.getD v.idx default).value

/-- Arena read `context.blocks[b.0]`. -/
def Context.blockContent (ctx : Context) (b : Block) : BlockContent :=
  ctx.blocks.getD b.idx default

/-- Arena read `context.functions[f.0]`. -/
def Context.functionContent (ctx : Context) (f : Function) : FunctionContent :=
  ctx.functions.getD f.idx default

/-- In-place write `context.values[v.0].value = d`. -/
def Context.setValueDatum (ctx : Context) (v : Value) (d : ValueDatum) : Context :=
  { ctx with values := ctx.values.set v.idx ⟨d⟩ }

/-- In-place write `context.blocks[b.0] = c`. -/
def Context.setBlock (ctx : Context) (b : Block) (c : BlockContent) : Context :=
  { ctx with blocks := ctx.blocks.set b.idx c }

/-- In-place write `context.functions[f.0] = c`. -/
def Context.setFunction (ctx : Context) (f : Function) (c : FunctionContent) : Context :=
  { ctx with functions := ctx.functions.set f.idx c }

/-- Shorthand for a block's instruction list. -/
def Context.instrsOf (ctx : Context) (b : Block) : List Value :=
  (ctx.blockContent b).instructions

/-- Shorthand for a block's predecessor set. -/
def Context.predsOf (ctx : Context) (b : Block) : Finset Block :=
  (ctx.blockContent b).preds

/-- Shorthand for a block's argument list. -/
def Context.argsOf (ctx : Context) (b : Block) : List Value :=
  (ctx.blockContent b).args

mutual
/-- `Value::get_type` (`value.rs` is not under `src/`; §4.2: resolves through
the datum kind; the instruction case recurses, which on cyclic handle graphs
need not terminate in the Rust source either, hence the fuel). -/
def Value.get_type (ctx : Context) : Nat → Value → Option Ty
  | 0, _ => none
  | fuel + 1, v =>
    match ctx.valueDatum v with
    | .Argument arg => some arg.ty
    | .Constant c => some c.ty
    | .Instruction ins => Instruction.get_type ctx fuel ins

/-- `Instruction::get_type` from `instruction.rs` (lines 220-268). -/
def Instruction.get_type (ctx : Context) : Nat → Instruction → Option Ty
  | fuel, i =>
    match i with
    | .AddrOf _ => some (.Uint 64)
    | .AsmBlock asm _ => some asm.returnType
    | .BinaryOp _ arg1 _ => Value.get_type ctx fuel arg1
    | .BitCast _ ty => some ty
    | .Call callee _ => some (ctx.functionContent callee).return_type
    | .Cmp _ _ _ => some .Bool
    | .ContractCall return_type _ _ _ _ _ => some return_type
    | .ExtractElement _ ty _ => ty.get_elem_type
    | .ExtractValue _ ty indices => ty.get_field_type indices
    | .FuelVm .GetStorageKey => some .B256
    | .FuelVm (.Gtf _ _) => some (.Uint 64)
    | .FuelVm (.Log _ _ _) => some .Unit
    | .FuelVm (.ReadRegister _) => some (.Uint 64)
    | .FuelVm (.StateLoadWord _) => some (.Uint 64)
    | .InsertElement array _ _ _ => Value.get_type ctx fuel array
    | .InsertValue aggregate _ _ _ => Value.get_type ctx fuel aggregate
    | .Load ptr_val =>
      match ctx.valueDatum ptr_val with
      | .Argument arg => some arg.ty.strip_ptr_type
      | .Constant cons => some cons.ty.strip_ptr_type
      | .Instruction ins =>
        match fuel with
        | 0 => none
        | n + 1 => (Instruction.get_type ctx n ins).map Ty.strip_ptr_type
    | .GetPointer _ ptr_ty _ => some (.Pointer ptr_ty)
    | .IntToPtr _ ty => some ty
    | .Branch _ => none
    | .ConditionalBranch _ _ _ => none
    | .FuelVm (.Revert _) => none
    | .Ret _ _ => none
    | .FuelVm (.Smo _ _ _ _) => some .Unit
    | .FuelVm (.StateLoadQuadWord _ _) => some .Unit
    | .FuelVm (.StateStoreQuadWord _ _) => some .Unit
    | .FuelVm (.StateStoreWord _ _) => some .Unit
    | .MemCopy _ _ _ => some .Unit
    | .Store _ _ => some .Unit
    | .Nop => none
end

/-- `Value::new_instruction` (§4.2): insert a fresh instruction value into the
values arena and return its handle. -/
def Value.new_instruction (ctx : Context) (i : Instruction) : Context × Value :=
  ({ ctx with values := ctx.values ++ [⟨.Instruction i⟩] }, ⟨ctx.values.length⟩)

/-- `Block::add_pred` from `block.rs` (lines 160-163). -/
def Block.add_pred (b : Block) (ctx : Context) (from_block : Block) : Context :=
  ctx.setBlock b { ctx.blockContent b with preds := insert from_block (ctx.predsOf b) }

/-- `Block::remove_pred` from `block.rs` (lines 165-168). -/
def Block.remove_pred (b : Block) (ctx : Context) (from_block : Block) : Context :=
  ctx.setBlock b { ctx.blockContent b with preds := (ctx.predsOf b).erase from_block }

/-- `Block::replace_pred` from `block.rs` (lines 170-174). -/
def Block.replace_pred (b : Block) (ctx : Context) (old_source new_source : Block) : Context :=
  (b.remove_pred ctx old_source) |> (fun c => b.add_pred c new_source)

/-- `Block::get_terminator` from `block.rs` (lines 176-188): the last
instruction value's datum, if the block is non-empty and that datum is an
instruction.  Note that the source does not check `is_terminator`. -/
def Block.get_terminator (b : Block) (ctx : Context) : Option Instruction :=
  (ctx.instrsOf b).getLast?.bind (fun val =>
    match ctx.valueDatum val with
    | .Instruction term_inst => some term_inst
    | _ => none)

/-- `Block::successors` from `block.rs` (lines 204-217). -/
def Block.successors (b : Block) (ctx : Context) : List BranchToWithArgs :=
  match b.get_terminator ctx with
  | some (.ConditionalBranch _ true_block false_block) => [true_block, false_block]
  | some (.Branch to_block) => [to_block]
  | _ => []

/-- `Block::get_succ_params` from `block.rs` (lines 219-225). -/
def Block.get_succ_params (b : Block) (ctx : Context) (succ : Block) : List Value :=
  ((b.successors ctx).find? (fun branch => branch.block = succ)).elim [] (fun branch => branch.args)

/-- `Block::replace_successor` from `block.rs` (lines 252-301).  The
`get_terminator_mut` write goes back to the last instruction value's datum;
the `modified` flag drives the `preds` updates. -/
def Block.replace_successor (b : Block) (ctx : Context)
    (old_succ new_succ : Block) (new_params : List Value) : Context :=
  match (ctx.instrsOf b).getLast? with
  | none => ctx
  | some val =>
    match ctx.valueDatum val with
    | .Instruction term =>
      match term with
      | .ConditionalBranch cond_value ⟨true_block, true_opds⟩ ⟨false_block, false_opds⟩ =>
          let tb := if old_succ = true_block then new_succ else true_block
          let topds := if old_succ = true_block then new_params else true_opds
          let fb := if old_succ = false_block then new_succ else false_block
          let fopds := if old_succ = false_block then new_params else false_opds
          let ctx1 := ctx.setValueDatum val
            (.Instruction (.ConditionalBranch cond_value ⟨tb, topds⟩ ⟨fb, fopds⟩))
          if old_succ = true_block ∨ old_succ = false_block then
            (new_succ.add_pred (old_succ.remove_pred ctx1 b) b)
          else ctx1
      | .Branch ⟨blk, _⟩ =>
          if blk = old_succ then
            let ctx1 := ctx.setValueDatum val (.Instruction (.Branch ⟨new_succ, new_params⟩))
            (new_succ.add_pred (old_succ.remove_pred ctx1 b) b)
          else ctx
      | _ => ctx
    | _ => ctx

/-- `Block::is_terminated` from `block.rs` (lines 303-310); `Value::is_terminator`
resolves the datum and asks `Instruction::is_terminator` (§4.2). -/
def Block.is_terminated (b : Block) (ctx : Context) : Bool :=
  match (ctx.instrsOf b).getLast? with
  | none => false
  | some val =>
    match ctx.valueDatum val with
    | .Instruction ins => ins.is_terminator
    | _ => false

/-- `Block::remove_instruction` from `block.rs` (lines 333-344): find the first
position holding `instr_val` and remove it; no check that the value is not the
terminator, no error channel. -/
def Block.remove_instruction (b : Block) (ctx : Context) (instr_val : Value) : Context :=
  ctx.setBlock b { ctx.blockContent b with instructions := (ctx.instrsOf b).erase instr_val }

/-- `Block::add_arg` from `block.rs` (lines 133-143); the `panic!` on an
inconsistent argument becomes `none`. -/
def Block.add_arg (b : Block) (ctx : Context) (arg : Value) : Option Context :=
  match ctx.valueDatum arg with
  | .Argument ba =>
    if ba.block = b ∧ ba.idx = (ctx.argsOf b).length then
      some (ctx.setBlock b { ctx.blockContent b with args := (ctx.argsOf b) ++ [arg] })
    else none
  | _ => none

/-- Modelled from the spec: `Function::get_unique_label` (`function.rs` is not
under `src/`); §3: a caller-supplied base is uniquified, an absent base yields
an auto-generated label.  Labels carry no semantics here. -/
def Function.get_unique_label (_f : Function) (_ctx : Context) (label : Option String) : String :=
  label.getD "block"

/-- `Block::new` from `block.rs` (lines 70-85): insert a fresh, empty block
content into the blocks arena. -/
def Block.new (ctx : Context) (function : Function) (label : Option String) : Context × Block :=
  let lbl := function.get_unique_label ctx label
  ({ ctx with blocks := ctx.blocks ++ [⟨lbl, function, [], [], ∅⟩] }, ⟨ctx.blocks.length⟩)

/-- Modelled from the spec: `Function::create_block_before` (`function.rs` is
not under `src/`); §4.6: create a new block and splice it into the function's
block list immediately before `other`; fails if `other` is not in the list. -/
def Function.create_block_before (f : Function) (ctx : Context) (other : Block)
    (label : Option String) : Option (Context × Block) :=
  ((ctx.functionContent f).blocks.findIdx? (fun blk => blk = other)).map (fun bidx =>
    let res := Block.new ctx f label
    let ctx2 := res.1.setFunction f
      { res.1.functionContent f with
        blocks := (res.1.functionContent f).blocks.insertIdx bidx res.2 }
    (ctx2, res.2))

/-- Modelled from the spec: `Function::create_block_after` (`function.rs` is
not under `src/`); §4.6: splice a new block immediately after `other`. -/
def Function.create_block_after (f : Function) (ctx : Context) (other : Block)
    (label : Option String) : Option (Context × Block) :=
  ((ctx.functionContent f).blocks.findIdx? (fun blk => blk = other)).map (fun bidx =>
    let res := Block.new ctx f label
    let ctx2 := res.1.setFunction f
      { res.1.functionContent f with
        blocks := (res.1.functionContent f).blocks.insertIdx (bidx + 1) res.2 }
    (ctx2, res.2))

/-- The argument-migration loop of `split_at(0)` in `block.rs` (lines 386-402):
rewrite the argument value's datum to point at `new_block`, then `add_arg` it
there; the `unreachable!` on a non-argument datum becomes `none`. -/
def migrateArg (ctx : Context) (new_block : Block) (arg : Value) : Option Context :=
  match ctx.valueDatum arg with
  | .Argument ba => new_block.add_arg (ctx.setValueDatum arg (.Argument { ba with block := new_block })) arg
  | _ => none

/-- Fold `migrateArg` over the argument list. -/
def migrateArgs (ctx : Context) (new_block : Block) : List Value → Option Context
  | [] => some ctx
  | a :: rest => (migrateArg ctx new_block a).bind (fun c => migrateArgs c new_block rest)

/-- The successor-collection match inside `split_at` (`block.rs` lines
421-434), extracted as a named function of the relocated terminator: `Branch`
contributes its destination, `ConditionalBranch` both destinations, anything
else nothing. -/
def splitSuccBlocks : Option Instruction → List Block
  | some (.Branch to_block) => [to_block.block]
  | some (.ConditionalBranch _ true_block false_block) =>
      [true_block.block, false_block.block]
  | _ => []

/-- `Block::split_at` from `block.rs` (lines 376-440).  Panicking paths
(`unwrap` on block creation, `unreachable!`/`panic!` during argument migration,
`Vec::split_off` with an out-of-range index) are modelled as `none`. -/
def Block.split_at (b : Block) (ctx : Context) (split_idx : Nat) :
    Option (Context × Block × Block) :=
  let function := (ctx.blockContent b).function
  if split_idx = 0 then
    (function.create_block_before ctx b none).bind (fun res =>
      let ctx1 := res.1
      let new_block := res.2
      (migrateArgs ctx1 new_block (ctx1.argsOf b)).map (fun ctx2 =>
        let ctx3 := ctx2.setBlock b { ctx2.blockContent b with args := [] }
        (ctx3, new_block, b)))
  else
    if split_idx ≤ (ctx.instrsOf b).length then
      (function.create_block_after ctx b none).map (fun res =>
        let ctx1 := res.1
        let new_block := res.2
        let head_instructions := (ctx1.instrsOf b).take split_idx
        let tail_instructions := (ctx1.instrsOf b).drop split_idx
        let ctx2 := ctx1.setBlock b { ctx1.blockContent b with instructions := head_instructions }
        let ctx3 := ctx2.setBlock new_block
          { ctx2.blockContent new_block with
            instructions := (ctx2.instrsOf new_block) ++ tail_instructions }
        let to_blocks := splitSuccBlocks (new_block.get_terminator ctx3)
        let ctx4 := to_blocks.foldl (fun c to_block => to_block.replace_pred c b new_block) ctx3
        (ctx4, b, new_block))
    else none

/- ---------------------------------------------------------------------- -/
/- InstructionInserter (`instruction.rs`, lines 630-953)                  -/
/- ---------------------------------------------------------------------- -/

/-- `InstructionInserter::branch` from `instruction.rs` (lines 694-705): make
the branch value, register `block` as a predecessor of the destination, append
the value to `block`'s instruction list. -/
def InstructionInserter.branch (ctx : Context) (block : Block)
    (to_block : Block) (dest_params : List Value) : Context × Value :=
  let res := Value.new_instruction ctx (.Branch ⟨to_block, dest_params⟩)
  let ctx1 := to_block.add_pred res.1 block
  let ctx2 := ctx1.setBlock block
    { ctx1.blockContent block with instructions := (ctx1.instrsOf block) ++ [res.2] }
  (ctx2, res.2)

/-- `InstructionInserter::conditional_branch` from `instruction.rs` (lines
715-741): make the conditional-branch value, register `block` as a predecessor
of both destinations, append the value to `block`'s instruction list. -/
def InstructionInserter.conditional_branch (ctx : Context) (block : Block)
    (cond_value : Value) (true_block false_block : Block)
    (true_dest_params false_dest_params : List Value) : Context × Value :=
  let res := Value.new_instruction ctx
    (.ConditionalBranch cond_value ⟨true_block, true_dest_params⟩ ⟨false_block, false_dest_params⟩)
  let ctx1 := true_block.add_pred res.1 block
  let ctx2 := false_block.add_pred ctx1 block
  let ctx3 := ctx2.setBlock block
    { ctx2.blockContent block with instructions := (ctx2.instrsOf block) ++ [res.2] }
  (ctx3, res.2)

/- ---------------------------------------------------------------------- -/
/- Arena bookkeeping lemmas                                               -/
/- ---------------------------------------------------------------------- -/

theorem getD_set_self {α : Type _} (l : List α) (i : Nat) (a d : α) (h : i < l.length) :
    (l.set i a).getD i d = a := by
  simp [List.getD]
  rw [List.getElem?_set_self h]
  rfl

theorem getD_set_of_ne {α : Type _} (l : List α) {i j : Nat} (a d : α) (h : i ≠ j) :
    (l.set i a).getD j d = l.getD j d := by
  simp [List.getD, List.getElem?_set_ne h]

theorem getD_set_of_ge {α : Type _} (l : List α) {i : Nat} (j : Nat) (a d : α)
    (h : l.length ≤ i) : (l.set i a).getD j d = l.getD j d := by
  rw [List.set_eq_of_length_le h]

theorem getD_append_self {α : Type _} (l : List α) (a d : α) :
    (l ++ [a]).getD l.length d = a := by
  simp [List.getD]

theorem getD_append_of_lt {α : Type _} (l : List α) (a d : α) {i : Nat} (h : i < l.length) :
    (l ++ [a]).getD i d = l.getD i d := by
  simp [List.getD, List.getElem?_append_left h]

theorem blockContent_setBlock (ctx : Context) (b : Block) (c : BlockContent) (b' : Block) :
    (ctx.setBlock b c).blockContent b' =
      if b.idx = b'.idx ∧ b.idx < ctx.blocks.length then c else ctx.blockContent b' := by
  unfold Context.setBlock Context.blockContent
  by_cases hlen : b.idx < ctx.blocks.length
  · by_cases hij : b.idx = b'.idx
    · rw [← hij]
      simp [hlen, getD_set_self _ _ _ _ hlen]
    · simp [hij, getD_set_of_ne _ _ _ hij]
  · rw [List.set_eq_of_length_le (Nat.le_of_not_lt hlen)]
    simp [hlen]

theorem valueDatum_setValueDatum (ctx : Context) (v : Value) (d : ValueDatum) (w : Value) :
    (ctx.setValueDatum v d).valueDatum w =
      if v.idx = w.idx ∧ v.idx < ctx.values.length then d else ctx.valueDatum w := by
  unfold Context.setValueDatum Context.valueDatum
  by_cases hlen : v.idx < ctx.values.length
  · by_cases hij : v.idx = w.idx
    · rw [← hij]
      simp [hlen, getD_set_self _ _ _ _ hlen]
    · simp [hij, getD_set_of_ne _ _ _ hij]
  · rw [List.set_eq_of_length_le (Nat.le_of_not_lt hlen)]
    simp [hlen]

@[simp]
theorem valueDatum_setBlock (ctx : Context) (b : Block) (c : BlockContent) (w : Value) :
    (ctx.setBlock b c).valueDatum w = ctx.valueDatum w := rfl

@[simp]
theorem valueDatum_setFunction (ctx : Context) (f : Function) (c : FunctionContent) (w : Value) :
    (ctx.setFunction f c).valueDatum w = ctx.valueDatum w := rfl

@[simp]
theorem blockContent_setValueDatum (ctx : Context) (v : Value) (d : ValueDatum) (b : Block) :
    (ctx.setValueDatum v d).blockContent b = ctx.blockContent b := rfl

@[simp]
theorem blockContent_setFunction (ctx : Context) (f : Function) (c : FunctionContent) (b : Block) :
    (ctx.setFunction f c).blockContent b = ctx.blockContent b := rfl

@[simp]
theorem values_setBlock (ctx : Context) (b : Block) (c : BlockContent) :
    (ctx.setBlock b c).values = ctx.values := rfl

@[simp]
theorem values_setFunction (ctx : Context) (f : Function) (c : FunctionContent) :
    (ctx.setFunction f c).values = ctx.values := rfl

@[simp]
theorem blocks_length_setValueDatum (ctx : Context) (v : Value) (d : ValueDatum) :
    (ctx.setValueDatum v d).blocks = ctx.blocks := rfl

theorem blocks_length_setBlock (ctx : Context) (b : Block) (c : BlockContent) :
    (ctx.setBlock b c).blocks.length = ctx.blocks.length := by
  simp [Context.setBlock]

/-- `add_pred` only touches the target's `preds` field. -/
theorem blockContent_add_pred (ctx : Context) (t f b : Block) :
    ((t.add_pred ctx f).blockContent b).instructions = (ctx.blockContent b).instructions ∧
    ((t.add_pred ctx f).blockContent b).args = (ctx.blockContent b).args ∧
    ((t.add_pred ctx f).blockContent b).function = (ctx.blockContent b).function := by
  unfold Block.add_pred
  rw [blockContent_setBlock]
  by_cases h : t.idx = b.idx ∧ t.idx < ctx.blocks.length
  · rcases h with ⟨hib, hlen⟩
    have hb : t = b := by cases t; cases b; simpa using hib
    subst hb
    simp [hib, hlen]
  · simp [h]

/-- `remove_pred` only touches the target's `preds` field. -/
theorem blockContent_remove_pred (ctx : Context) (t f b : Block) :
    ((t.remove_pred ctx f).blockContent b).instructions = (ctx.blockContent b).instructions ∧
    ((t.remove_pred ctx f).blockContent b).args = (ctx.blockContent b).args ∧
    ((t.remove_pred ctx f).blockContent b).function = (ctx.blockContent b).function := by
  unfold Block.remove_pred
  rw [blockContent_setBlock]
  by_cases h : t.idx = b.idx ∧ t.idx < ctx.blocks.length
  · rcases h with ⟨hib, hlen⟩
    have hb : t = b := by cases t; cases b; simpa using hib
    subst hb
    simp [hib, hlen]
  · simp [h]

theorem instrsOf_add_pred (ctx : Context) (t f b : Block) :
    (t.add_pred ctx f).instrsOf b = ctx.instrsOf b :=
  (blockContent_add_pred ctx t f b).1

theorem instrsOf_remove_pred (ctx : Context) (t f b : Block) :
    (t.remove_pred ctx f).instrsOf b = ctx.instrsOf b :=
  (blockContent_remove_pred ctx t f b).1

@[simp]
theorem valueDatum_add_pred (ctx : Context) (t f : Block) (w : Value) :
    (t.add_pred ctx f).valueDatum w = ctx.valueDatum w := rfl

@[simp]
theorem valueDatum_remove_pred (ctx : Context) (t f : Block) (w : Value) :
    (t.remove_pred ctx f).valueDatum w = ctx.valueDatum w := rfl

/-- `add_pred` on a valid handle inserts the predecessor. -/
theorem predsOf_add_pred_self (ctx : Context) (t f : Block) (h : t.idx < ctx.blocks.length) :
    (t.add_pred ctx f).predsOf t = insert f (ctx.predsOf t) := by
  unfold Block.add_pred Context.predsOf
  rw [blockContent_setBlock]
  simp [h]

/-- `add_pred` leaves other blocks' predecessor sets alone. -/
theorem predsOf_add_pred_of_ne (ctx : Context) (t f b : Block) (h : t ≠ b) :
    (t.add_pred ctx f).predsOf b = ctx.predsOf b := by
  unfold Block.add_pred Context.predsOf
  rw [blockContent_setBlock]
  have : ¬(t.idx = b.idx ∧ t.idx < ctx.blocks.length) := by
    rintro ⟨hib, -⟩
    exact h (by cases t; cases b; simpa using hib)
  simp [this]

theorem predsOf_remove_pred_self (ctx : Context) (t f : Block) (h : t.idx < ctx.blocks.length) :
    (t.remove_pred ctx f).predsOf t = (ctx.predsOf t).erase f := by
  unfold Block.remove_pred Context.predsOf
  rw [blockContent_setBlock]
  simp [h]

theorem predsOf_remove_pred_of_ne (ctx : Context) (t f b : Block) (h : t ≠ b) :
    (t.remove_pred ctx f).predsOf b = ctx.predsOf b := by
  unfold Block.remove_pred Context.predsOf
  rw [blockContent_setBlock]
  have : ¬(t.idx = b.idx ∧ t.idx < ctx.blocks.length) := by
    rintro ⟨hib, -⟩
    exact h (by cases t; cases b; simpa using hib)
  simp [this]

theorem blocks_length_add_pred (ctx : Context) (t f : Block) :
    (t.add_pred ctx f).blocks.length = ctx.blocks.length := by
  unfold Block.add_pred
  exact blocks_length_setBlock _ _ _

theorem blocks_length_remove_pred (ctx : Context) (t f : Block) :
    (t.remove_pred ctx f).blocks.length = ctx.blocks.length := by
  unfold Block.remove_pred
  exact blocks_length_setBlock _ _ _

theorem blockContent_congr_idx (ctx : Context) {b t : Block} (h : b.idx = t.idx) :
    ctx.blockContent b = ctx.blockContent t := by
  unfold Context.blockContent
  rw [h]

/-- Rewriting a block's content without changing its `preds` field leaves every
block's predecessor set unchanged. -/
theorem predsOf_setBlock_keep (ctx : Context) (b : Block) (c : BlockContent) (t : Block)
    (hpreds : c.preds = (ctx.blockContent b).preds) :
    (ctx.setBlock b c).predsOf t = ctx.predsOf t := by
  unfold Context.predsOf
  rw [blockContent_setBlock]
  by_cases h : b.idx = t.idx ∧ b.idx < ctx.blocks.length
  · rw [if_pos h, hpreds, blockContent_congr_idx ctx h.1]
  · rw [if_neg h]

/-- Rewriting a block's content without changing its `instructions` field
leaves every block's instruction list unchanged. -/
theorem instrsOf_setBlock_keep (ctx : Context) (b : Block) (c : BlockContent) (t : Block)
    (hins : c.instructions = (ctx.blockContent b).instructions) :
    (ctx.setBlock b c).instrsOf t = ctx.instrsOf t := by
  unfold Context.instrsOf
  rw [blockContent_setBlock]
  by_cases h : b.idx = t.idx ∧ b.idx < ctx.blocks.length
  · rw [if_pos h, hins, blockContent_congr_idx ctx h.1]
  · rw [if_neg h]

theorem instrsOf_setBlock_self (ctx : Context) (b : Block) (c : BlockContent)
    (h : b.idx < ctx.blocks.length) :
    (ctx.setBlock b c).instrsOf b = c.instructions := by
  unfold Context.instrsOf
  rw [blockContent_setBlock, if_pos ⟨rfl, h⟩]

/-- Appending to a block's instruction list leaves every predecessor set
unchanged. -/
theorem predsOf_set_instructions (ctx : Context) (b : Block) (x : List Value) (t : Block) :
    (ctx.setBlock b { ctx.blockContent b with instructions := x }).predsOf t = ctx.predsOf t :=
  predsOf_setBlock_keep ctx b _ t rfl

/-- Rewriting a block's `args` list leaves every instruction list unchanged. -/
theorem instrsOf_set_args (ctx : Context) (b : Block) (x : List Value) (t : Block) :
    (ctx.setBlock b { ctx.blockContent b with args := x }).instrsOf t = ctx.instrsOf t :=
  instrsOf_setBlock_keep ctx b _ t rfl

/-- Rewriting a block's `args` list leaves every predecessor set unchanged. -/
theorem predsOf_set_args (ctx : Context) (b : Block) (x : List Value) (t : Block) :
    (ctx.setBlock b { ctx.blockContent b with args := x }).predsOf t = ctx.predsOf t :=
  predsOf_setBlock_keep ctx b _ t rfl

theorem valueDatum_push (ctx : Context) (d : ValueDatum) :
    ({ ctx with values := ctx.values ++ [⟨d⟩] } : Context).valueDatum ⟨ctx.values.length⟩ = d := by
  unfold Context.valueDatum
  rw [getD_append_self]

theorem valueDatum_push_old (ctx : Context) (d : ValueDatum) (v : Value)
    (h : v.idx < ctx.values.length) :
    ({ ctx with values := ctx.values ++ [⟨d⟩] } : Context).valueDatum v = ctx.valueDatum v := by
  unfold Context.valueDatum
  rw [getD_append_of_lt _ _ _ h]

/- ---------------------------------------------------------------------- -/
/- Chase/replace helpers                                                  -/
/- ---------------------------------------------------------------------- -/

/-- A value outside the map's domain is a fixed point of the rewrite chain. -/
theorem chase_of_none (m : List (Value × Value)) (fuel : Nat) (v : Value)
    (h : mapGet m v = none) : chase m fuel v = v := by
  cases fuel with
  | zero => rfl
  | succ n => simp [chase, h]

/-- Once a chain has reached a value outside the map's domain, further chasing
with any fuel does nothing. -/
theorem chase_stab (m : List (Value × Value)) (fuel fuel2 : Nat) (v : Value)
    (h : mapGet m (chase m fuel v) = none) :
    chase m fuel2 (chase m fuel v) = chase m fuel v :=
  chase_of_none m fuel2 _ h

theorem map_eq_self_of {α : Type _} (l : List α) (f : α → α) (h : ∀ a ∈ l, f a = a) :
    l.map f = l := by
  induction l with
  | nil => rfl
  | cons a t ih =>
    simp only [List.map_cons, h a (by simp)]
    rw [ih (fun x hx => h x (by simp [hx]))]

/- ---------------------------------------------------------------------- -/
/- Claim C1                                                               -/
/- ---------------------------------------------------------------------- -/

/-- Claim C1, counterexample: `get_operands` on `Load v` lists `v`, the
replacement map is defined at `v` (and one application of the chain
terminates), yet `replace_values` leaves the `Load` unchanged — so the slot is
not rewritten, refuting the claimed equivalence between occurrence in
`get_operands` and being touched by `replace_values`. -/
theorem C1_operand_coverage_counterexample :
    Instruction.get_operands (.Load ⟨0⟩) = [⟨0⟩] ∧
    mapGet [(⟨0⟩, ⟨1⟩)] ⟨0⟩ = some ⟨1⟩ ∧
    mapGet [(⟨0⟩, ⟨1⟩)] (chase [(⟨0⟩, ⟨1⟩)] 1 ⟨0⟩) = none ∧
    Instruction.replace_values 1 [(⟨0⟩, ⟨1⟩)] (.Load ⟨0⟩) = .Load ⟨0⟩ :=
  ⟨rfl, rfl, rfl, rfl⟩

/-- Claim C1 (corrected): the operand slots rewritten by `replace_values` are
exactly those in `touched_operands` (each touched slot is rewritten to its
chase through the map, and a map undefined on all listed operands leaves the
instruction unchanged); `touched_operands` is a permutation of `get_operands`
(the state-store kinds pass key before value to the rewriter) on every
instruction kind except `Load` and `Store`: `get_operands` additionally lists
`Load`'s address operand and `Store`'s `dst_val`, which `replace_values` never
rewrites. -/
theorem C1_operand_coverage (i : Instruction) (m : List (Value × Value)) (fuel : Nat) :
    ((Instruction.replace_values fuel m i).touched_operands
        = i.touched_operands.map (chase m fuel)) ∧
    ((∀ v ∈ i.get_operands, mapGet m v = none) → Instruction.replace_values fuel m i = i) ∧
    (∀ v, (Instruction.Load v).touched_operands = [] ∧
      (Instruction.Load v).get_operands = [v]) ∧
    (∀ d s, (Instruction.Store d s).touched_operands = [s] ∧
      (Instruction.Store d s).get_operands = [d, s]) ∧
    ((∀ v, i ≠ .Load v) → (∀ d s, i ≠ .Store d s) →
      i.touched_operands.Perm i.get_operands) := by
  refine ⟨?_, ?_, fun v => ⟨rfl, rfl⟩, fun d s => ⟨rfl, rfl⟩, ?_⟩
  · cases i with
    | AsmBlock asm args =>
      simp [Instruction.replace_values, Instruction.touched_operands,
        List.filterMap_map, List.map_filterMap]
      rfl
    | FuelVm fvi =>
      cases fvi <;>
        simp [Instruction.replace_values, Instruction.touched_operands]
    | ConditionalBranch cond_value true_block false_block =>
      simp [Instruction.replace_values, Instruction.touched_operands]
    | _ => simp [Instruction.replace_values, Instruction.touched_operands]
  · intro h
    cases i with
    | AsmBlock asm args =>
      simp only [Instruction.replace_values]
      have hargs : ∀ aa ∈ args,
          ({ aa with initializer := aa.initializer.map (chase m fuel) } : AsmArg) = aa := by
        intro aa haa
        cases aa with
        | mk nm init =>
          cases init with
          | none => rfl
          | some v =>
            have hv : v ∈ Instruction.get_operands (.AsmBlock asm args) := by
              show v ∈ args.filterMap (fun aa => aa.initializer)
              exact List.mem_filterMap.mpr ⟨⟨nm, some v⟩, haa, rfl⟩
            simp [chase_of_none m fuel v (h v hv)]
      rw [map_eq_self_of _ _ hargs]
    | FuelVm fvi =>
      cases fvi <;>
        simp_all [Instruction.replace_values, Instruction.get_operands, chase_of_none]
    | Branch to_block =>
      cases to_block with
      | mk tb targs =>
        have ht : targs.map (chase m fuel) = targs :=
          map_eq_self_of _ _ (fun v hv =>
            chase_of_none m fuel v (h v (by simpa [Instruction.get_operands] using hv)))
        simp [Instruction.replace_values, ht]
    | Call callee args =>
      have ha : args.map (chase m fuel) = args :=
        map_eq_self_of _ _ (fun v hv =>
          chase_of_none m fuel v (h v (by simpa [Instruction.get_operands] using hv)))
      simp [Instruction.replace_values, ha]
    | ConditionalBranch cond_value true_block false_block =>
      cases true_block with
      | mk tb targs =>
        cases false_block with
        | mk fb fargs =>
          have hc : chase m fuel cond_value = cond_value :=
            chase_of_none m fuel _ (h cond_value (by simp [Instruction.get_operands]))
          have ht : targs.map (chase m fuel) = targs :=
            map_eq_self_of _ _ (fun v hv =>
              chase_of_none m fuel v (h v (by simp [Instruction.get_operands, hv])))
          have hf : fargs.map (chase m fuel) = fargs :=
            map_eq_self_of _ _ (fun v hv =>
              chase_of_none m fuel v (h v (by simp [Instruction.get_operands, hv])))
          simp [Instruction.replace_values, hc, ht, hf]
    | _ =>
      simp_all [Instruction.replace_values, Instruction.get_operands, chase_of_none]
  · intro hL hS
    cases i with
    | Load v => exact absurd rfl (hL v)
    | Store d s => exact absurd rfl (hS d s)
    | FuelVm fvi =>
      cases fvi with
      | StateStoreQuadWord stored_val key => exact List.Perm.swap _ _ _
      | StateStoreWord stored_val key => exact List.Perm.swap _ _ _
      | _ => exact List.Perm.refl _
    | _ => exact List.Perm.refl _

/-- Claim C1, witness: the corrected theorem applied at a `Cmp` with an empty
map. -/
theorem C1_operand_coverage_witness :
    Instruction.replace_values 0 [] (.Cmp .Equal ⟨0⟩ ⟨1⟩) = .Cmp .Equal ⟨0⟩ ⟨1⟩ :=
  (C1_operand_coverage (.Cmp .Equal ⟨0⟩ ⟨1⟩) [] 0).2.1 (fun v _ => rfl)

/- ---------------------------------------------------------------------- -/
/- Claim C7                                                               -/
/- ---------------------------------------------------------------------- -/

/-- Claim C7 (confirmed): if one application of `replace_values` terminates on
instruction `i` (every touched operand's chain reaches a value outside the
map, witnessed by fuel `fuel`), then a second application — with any fuel —
changes nothing: each slot already sits at a fixed point of the chain. -/
theorem C7_replace_fixed_point (i : Instruction) (m : List (Value × Value)) (fuel fuel2 : Nat)
    (h : ∀ v ∈ i.touched_operands, mapGet m (chase m fuel v) = none) :
    Instruction.replace_values fuel2 m (Instruction.replace_values fuel m i)
      = Instruction.replace_values fuel m i := by
  cases i with
  | AsmBlock asm args =>
    simp only [Instruction.replace_values]
    rw [map_eq_self_of]
    intro aa haa
    rcases List.mem_map.mp haa with ⟨orig, horig, hfa⟩
    cases orig with
    | mk nm init =>
      cases init with
      | none =>
        rw [← hfa]
        rfl
      | some v =>
        have hv : v ∈ Instruction.touched_operands (.AsmBlock asm args) := by
          show v ∈ args.filterMap (fun aa => aa.initializer)
          exact List.mem_filterMap.mpr ⟨⟨nm, some v⟩, horig, rfl⟩
        rw [← hfa]
        simp [chase_stab m fuel fuel2 v (h v hv)]
  | Branch to_block =>
    have : ∀ v ∈ to_block.args, chase m fuel2 (chase m fuel v) = chase m fuel v := by
      intro v hv
      exact chase_stab m fuel fuel2 v (h v (by simpa [Instruction.touched_operands] using hv))
    cases to_block
    simp only [Instruction.replace_values]
    rw [List.map_map]
    congr 1
    simp_all
  | Call callee args =>
    have : ∀ v ∈ args, chase m fuel2 (chase m fuel v) = chase m fuel v := by
      intro v hv
      exact chase_stab m fuel fuel2 v (h v (by simpa [Instruction.touched_operands] using hv))
    simp only [Instruction.replace_values]
    rw [List.map_map]
    congr 1
    simp_all
  | ConditionalBranch cond_value true_block false_block =>
    have hc : ∀ v ∈ (cond_value :: (true_block.args ++ false_block.args)),
        chase m fuel2 (chase m fuel v) = chase m fuel v := by
      intro v hv
      exact chase_stab m fuel fuel2 v (h v (by simpa [Instruction.touched_operands] using hv))
    cases true_block
    cases false_block
    simp only [Instruction.replace_values]
    rw [List.map_map, List.map_map]
    congr 1
    · exact hc cond_value (by simp)
    · congr 1
      exact List.map_congr_left (fun v hv => hc v (by simp [hv]))
    · congr 1
      exact List.map_congr_left (fun v hv => hc v (by simp [hv]))
  | FuelVm fvi =>
    cases fvi <;> simp_all [Instruction.replace_values, Instruction.touched_operands, chase_stab]
  | _ =>
    simp_all [Instruction.replace_values, Instruction.touched_operands, chase_stab]

/-- Claim C7, witness: one terminating application on `AddrOf`, then a second
application with different fuel. -/
theorem C7_replace_fixed_point_witness :
    Instruction.replace_values 5 [(⟨0⟩, ⟨1⟩)]
        (Instruction.replace_values 1 [(⟨0⟩, ⟨1⟩)] (.AddrOf ⟨0⟩))
      = Instruction.replace_values 1 [(⟨0⟩, ⟨1⟩)] (.AddrOf ⟨0⟩) :=
  C7_replace_fixed_point (.AddrOf ⟨0⟩) [(⟨0⟩, ⟨1⟩)] 1 5 (by decide)

/- ---------------------------------------------------------------------- -/
/- Claim C8                                                               -/
/- ---------------------------------------------------------------------- -/

/-- Claim C8, counterexample: `Nop` is typed `None`, not `Some(Unit)` as the
claim asserts. -/
theorem C8_unit_typed_counterexample :
    Instruction.get_type ⟨[], [], []⟩ 1 .Nop = none := by
  simp [Instruction.get_type]

/-- Claim C8 (corrected): `Store`, `MemCopy`, `Log`, `Smo`, `StateStoreWord`
and `StateStoreQuadWord` are all typed `Some(Unit)`, but `Nop` — also listed by
the claim — is typed `None`. -/
theorem C8_unit_typed (ctx : Context) (fuel : Nat) (d s lv li k a b c e : Value)
    (ty : Ty) (n : Nat) :
    Instruction.get_type ctx fuel (.Store d s) = some .Unit ∧
    Instruction.get_type ctx fuel (.MemCopy d s n) = some .Unit ∧
    Instruction.get_type ctx fuel (.FuelVm (.Log lv ty li)) = some .Unit ∧
    Instruction.get_type ctx fuel (.FuelVm (.Smo a b c e)) = some .Unit ∧
    Instruction.get_type ctx fuel (.FuelVm (.StateStoreWord s k)) = some .Unit ∧
    Instruction.get_type ctx fuel (.FuelVm (.StateStoreQuadWord s k)) = some .Unit ∧
    Instruction.get_type ctx fuel .Nop = none := by
  refine ⟨?_, ?_, ?_, ?_, ?_, ?_, ?_⟩ <;> simp [Instruction.get_type]

/- ---------------------------------------------------------------------- -/
/- Claim C2                                                               -/
/- ---------------------------------------------------------------------- -/

/-- Claim C2, counterexample: a block whose last (and only) instruction is the
non-terminator `Nop`; the claim says `get_terminator` returns `None`, but the
source returns the last instruction without checking `is_terminator`. -/
theorem C2_get_terminator_counterexample :
    Block.get_terminator ⟨0⟩ ⟨[⟨.Instruction .Nop⟩], [⟨"", ⟨0⟩, [⟨0⟩], [], ∅⟩], []⟩
        = some .Nop ∧
    Instruction.is_terminator .Nop = false :=
  ⟨rfl, rfl⟩

/-- Claim C2 (corrected): `get_terminator` returns the last instruction of a
non-empty block whether or not it is a terminator (it never checks
`is_terminator`); it returns `None` exactly when the block is empty (or the
last value does not resolve to an instruction). -/
theorem C2_get_terminator (ctx : Context) (b : Block) (val : Value) (i : Instruction) :
    ((ctx.instrsOf b) = [] → b.get_terminator ctx = none) ∧
    ((ctx.instrsOf b).getLast? = some val → ctx.valueDatum val = .Instruction i →
      b.get_terminator ctx = some i) := by
  constructor
  · intro h
    simp [Block.get_terminator, h]
  · intro hlast hval
    simp [Block.get_terminator, hlast, hval]

/-- Claim C2, witness: the corrected theorem applied to a one-instruction
block ending in a (non-terminator) `Nop`. -/
theorem C2_get_terminator_witness :
    Block.get_terminator ⟨0⟩ ⟨[⟨.Instruction .Nop⟩], [⟨"lbl", ⟨0⟩, [⟨0⟩], [], ∅⟩], []⟩
      = some .Nop :=
  (C2_get_terminator ⟨[⟨.Instruction .Nop⟩], [⟨"lbl", ⟨0⟩, [⟨0⟩], [], ∅⟩], []⟩
      ⟨0⟩ ⟨0⟩ .Nop).2 rfl rfl

/- ---------------------------------------------------------------------- -/
/- Claim C9                                                               -/
/- ---------------------------------------------------------------------- -/

/-- Claim C9, counterexample: removing a block's terminator through
`remove_instruction` silently succeeds — the terminator is gone and there is no
abort or diagnostic (the operation has no error channel at all), contradicting
the claim that this misuse aborts. -/
theorem C9_remove_terminator_counterexample :
    Instruction.is_terminator (.Ret ⟨0⟩ .Unit) = true ∧
    (Block.remove_instruction ⟨0⟩
        ⟨[⟨.Instruction (.Ret ⟨0⟩ .Unit)⟩], [⟨"", ⟨0⟩, [⟨0⟩], [], ∅⟩], []⟩
        ⟨0⟩).instrsOf ⟨0⟩ = [] :=
  ⟨rfl, rfl⟩

/-- Claim C9 (corrected): `remove_instruction` performs an unchecked
linear-scan removal; called with the block's terminator it removes the
terminator and returns normally, with no diagnostic (avoiding this is an
unchecked caller obligation). -/
theorem C9_remove_terminator (ctx : Context) (b : Block) (v : Value) (l : List Value)
    (t : Instruction) (hb : b.idx < ctx.blocks.length)
    (hins : ctx.instrsOf b = l ++ [v]) (hnotin : v ∉ l)
    (hval : ctx.valueDatum v = .Instruction t) (hterm : t.is_terminator = true) :
    (b.remove_instruction ctx v).instrsOf b = l := by
  unfold Block.remove_instruction Context.instrsOf
  rw [blockContent_setBlock]
  rw [if_pos ⟨rfl, hb⟩]
  show (ctx.instrsOf b).erase v = l
  rw [hins, List.erase_append_right _ hnotin]
  simp

/-- Claim C9, witness: the corrected theorem applied to a one-instruction
block terminated by `Ret`. -/
theorem C9_remove_terminator_witness :
    (Block.remove_instruction ⟨0⟩
        ⟨[⟨.Instruction (.Ret ⟨0⟩ .Unit)⟩], [⟨"lbl", ⟨0⟩, [⟨0⟩], [], ∅⟩], []⟩
        ⟨0⟩).instrsOf ⟨0⟩ = [] :=
  C9_remove_terminator ⟨[⟨.Instruction (.Ret ⟨0⟩ .Unit)⟩], [⟨"lbl", ⟨0⟩, [⟨0⟩], [], ∅⟩], []⟩
    ⟨0⟩ ⟨0⟩ [] (.Ret ⟨0⟩ .Unit) (by decide) rfl (by simp) rfl rfl

/- ---------------------------------------------------------------------- -/
/- Claim C10                                                              -/
/- ---------------------------------------------------------------------- -/

/-- Claim C10 (confirmed): when a block's terminator is a conditional branch
with both edges targeting the same successor `S`, `get_succ_params` returns the
true edge's argument list (the first matching successor entry); the false
edge's list is never the result. -/
theorem C10_succ_params (ctx : Context) (b S : Block) (val cond_value : Value)
    (ta fa : List Value)
    (hlast : (ctx.instrsOf b).getLast? = some val)
    (hval : ctx.valueDatum val = .Instruction (.ConditionalBranch cond_value ⟨S, ta⟩ ⟨S, fa⟩)) :
    b.get_succ_params ctx S = ta := by
  unfold Block.get_succ_params Block.successors Block.get_terminator
  rw [hlast]
  simp [hval, List.find?]

/-- Claim C10, witness: a conditional branch with both edges to block 1 and
distinct argument lists; the true edge's list is returned. -/
theorem C10_succ_params_witness :
    Block.get_succ_params ⟨0⟩
      ⟨[⟨.Instruction (.ConditionalBranch ⟨9⟩ ⟨⟨1⟩, [⟨2⟩]⟩ ⟨⟨1⟩, [⟨3⟩]⟩)⟩],
        [⟨"e", ⟨0⟩, [⟨0⟩], [], ∅⟩, ⟨"t", ⟨0⟩, [], [], ∅⟩], []⟩
      ⟨1⟩ = [⟨2⟩] :=
  C10_succ_params
    ⟨[⟨.Instruction (.ConditionalBranch ⟨9⟩ ⟨⟨1⟩, [⟨2⟩]⟩ ⟨⟨1⟩, [⟨3⟩]⟩)⟩],
      [⟨"e", ⟨0⟩, [⟨0⟩], [], ∅⟩, ⟨"t", ⟨0⟩, [], [], ∅⟩], []⟩
    ⟨0⟩ ⟨1⟩ ⟨0⟩ ⟨9⟩ [⟨2⟩] [⟨3⟩] rfl rfl

/- ---------------------------------------------------------------------- -/
/- Claim C5                                                               -/
/- ---------------------------------------------------------------------- -/

/-- Claim C5 (confirmed): building a branch (resp. a conditional branch) in a
block `E` through `InstructionInserter` registers `E` as a predecessor of each
destination, and `E.successors` afterwards yields exactly the destinations
passed in, in declaration order — `[T]` for `branch`, and two entries
`[true_block, false_block]` for `conditional_branch` (two entries even when
both name the same block, since the statement places no constraint relating
`T` and `F`). -/
theorem C5_inserter_branch_successors (ctx : Context) (E T F : Block) (cond_value : Value)
    (params tps fps : List Value)
    (hE : E.idx < ctx.blocks.length) (hT : T.idx < ctx.blocks.length)
    (hF : F.idx < ctx.blocks.length) :
    (Block.successors E (InstructionInserter.branch ctx E T params).1 = [⟨T, params⟩] ∧
      E ∈ (InstructionInserter.branch ctx E T params).1.predsOf T) ∧
    (Block.successors E
        (InstructionInserter.conditional_branch ctx E cond_value T F tps fps).1
        = [⟨T, tps⟩, ⟨F, fps⟩] ∧
      E ∈ (InstructionInserter.conditional_branch ctx E cond_value T F tps fps).1.predsOf T ∧
      E ∈ (InstructionInserter.conditional_branch ctx E cond_value T F tps fps).1.predsOf F) := by
  constructor
  · simp only [InstructionInserter.branch, Value.new_instruction]
    set ctx1 : Context :=
      { ctx with values := ctx.values ++ [⟨.Instruction (.Branch ⟨T, params⟩)⟩] } with hctx1
    set brv : Value := ⟨ctx.values.length⟩ with hbrv
    set ctxA : Context := T.add_pred ctx1 E with hctxA
    have hlenA : ctxA.blocks.length = ctx.blocks.length := by
      rw [hctxA, blocks_length_add_pred]
    constructor
    · rw [Block.successors, Block.get_terminator]
      rw [instrsOf_setBlock_self _ _ _ (by rw [hlenA]; exact hE)]
      simp only [List.getLast?_append, List.getLast?_singleton, Option.or_some,
        Option.some_bind]
      have hv : ctxA.valueDatum brv = .Instruction (.Branch ⟨T, params⟩) := by
        rw [hctxA, valueDatum_add_pred, hctx1, hbrv]
        exact valueDatum_push ctx _
      rw [valueDatum_setBlock, hv]
    · rw [predsOf_set_instructions, hctxA,
        predsOf_add_pred_self _ _ _ (by rw [hctx1]; exact hT)]
      exact Finset.mem_insert_self E _
  · simp only [InstructionInserter.conditional_branch, Value.new_instruction]
    set cbi : Instruction :=
      .ConditionalBranch cond_value ⟨T, tps⟩ ⟨F, fps⟩ with hcbi
    set ctx1 : Context := { ctx with values := ctx.values ++ [⟨.Instruction cbi⟩] } with hctx1
    set brv : Value := ⟨ctx.values.length⟩ with hbrv
    set ctxA : Context := T.add_pred ctx1 E with hctxA
    set ctxB : Context := F.add_pred ctxA E with hctxB
    have hlenA : ctxA.blocks.length = ctx.blocks.length := by
      rw [hctxA, blocks_length_add_pred]
    have hlenB : ctxB.blocks.length = ctx.blocks.length := by
      rw [hctxB, blocks_length_add_pred, hlenA]
    refine ⟨?_, ?_, ?_⟩
    · rw [Block.successors, Block.get_terminator]
      rw [instrsOf_setBlock_self _ _ _ (by rw [hlenB]; exact hE)]
      simp only [List.getLast?_append, List.getLast?_singleton, Option.or_some,
        Option.some_bind]
      have hv : ctxB.valueDatum brv = .Instruction cbi := by
        rw [hctxB, valueDatum_add_pred, hctxA, valueDatum_add_pred, hctx1, hbrv]
        exact valueDatum_push ctx _
      rw [valueDatum_setBlock, hv]
    · rw [predsOf_set_instructions]
      by_cases hTF : F = T
      · rw [hctxB, hTF, predsOf_add_pred_self _ _ _ (by rw [hlenA]; exact hT)]
        exact Finset.mem_insert_self E _
      · rw [hctxB, predsOf_add_pred_of_ne _ _ _ _ hTF, hctxA,
          predsOf_add_pred_self _ _ _ (by rw [hctx1]; exact hT)]
        exact Finset.mem_insert_self E _
    · rw [predsOf_set_instructions, hctxB,
        predsOf_add_pred_self _ _ _ (by rw [hlenA]; exact hF)]
      exact Finset.mem_insert_self E _

/-- Claim C5, witness: a two-block context; a branch from block 0 to block 1
and a conditional branch with both destinations block 1. -/
theorem C5_inserter_branch_successors_witness :
    Block.successors ⟨0⟩
        (InstructionInserter.branch ⟨[], [⟨"e", ⟨0⟩, [], [], ∅⟩, ⟨"t", ⟨0⟩, [], [], ∅⟩], []⟩
          ⟨0⟩ ⟨1⟩ []).1
      = [⟨⟨1⟩, []⟩] ∧
    Block.successors ⟨0⟩
        (InstructionInserter.conditional_branch
          ⟨[], [⟨"e", ⟨0⟩, [], [], ∅⟩, ⟨"t", ⟨0⟩, [], [], ∅⟩], []⟩
          ⟨0⟩ ⟨7⟩ ⟨1⟩ ⟨1⟩ [⟨2⟩] [⟨3⟩]).1
      = [⟨⟨1⟩, [⟨2⟩]⟩, ⟨⟨1⟩, [⟨3⟩]⟩] :=
  ⟨((C5_inserter_branch_successors
      ⟨[], [⟨"e", ⟨0⟩, [], [], ∅⟩, ⟨"t", ⟨0⟩, [], [], ∅⟩], []⟩
      ⟨0⟩ ⟨1⟩ ⟨1⟩ ⟨7⟩ [] [⟨2⟩] [⟨3⟩] (by decide) (by decide) (by decide)).1).1,
   ((C5_inserter_branch_successors
      ⟨[], [⟨"e", ⟨0⟩, [], [], ∅⟩, ⟨"t", ⟨0⟩, [], [], ∅⟩], []⟩
      ⟨0⟩ ⟨1⟩ ⟨1⟩ ⟨7⟩ [] [⟨2⟩] [⟨3⟩] (by decide) (by decide) (by decide)).2).1⟩

/- ---------------------------------------------------------------------- -/
/- Claim C3                                                               -/
/- ---------------------------------------------------------------------- -/

/-- Claim C3 (confirmed): when block `b`'s terminator is a conditional branch
whose true and false edges both target `old_succ`, `replace_successor`
rewrites both edge destinations to `new_succ`, sets both edges' argument lists
to `new_params` (in the pure model the Rust clone-then-move of the vector is
just equality of both lists with `new_params`), removes `b` from `old_succ`'s
predecessor set (whenever `old_succ ≠ new_succ`; for `old_succ = new_succ` the
removal is immediately undone by the insertion), and adds `b` to `new_succ`'s
predecessor set. -/
theorem C3_replace_successor_both_edges (ctx : Context) (b old_succ new_succ : Block)
    (val cond_value : Value) (ta fa new_params : List Value)
    (hlast : (ctx.instrsOf b).getLast? = some val)
    (hval : ctx.valueDatum val
      = .Instruction (.ConditionalBranch cond_value ⟨old_succ, ta⟩ ⟨old_succ, fa⟩))
    (hvlen : val.idx < ctx.values.length)
    (ho : old_succ.idx < ctx.blocks.length) (hn : new_succ.idx < ctx.blocks.length) :
    Block.successors b (b.replace_successor ctx old_succ new_succ new_params)
        = [⟨new_succ, new_params⟩, ⟨new_succ, new_params⟩] ∧
    b ∈ (b.replace_successor ctx old_succ new_succ new_params).predsOf new_succ ∧
    (old_succ ≠ new_succ →
      b ∉ (b.replace_successor ctx old_succ new_succ new_params).predsOf old_succ) := by
  have hred : b.replace_successor ctx old_succ new_succ new_params
      = (new_succ.add_pred
          (old_succ.remove_pred
            (ctx.setValueDatum val
              (.Instruction (.ConditionalBranch cond_value
                ⟨new_succ, new_params⟩ ⟨new_succ, new_params⟩))) b) b) := by
    rw [Block.replace_successor, hlast]
    simp [hval]
  set ctx1 : Context := ctx.setValueDatum val
    (.Instruction (.ConditionalBranch cond_value
      ⟨new_succ, new_params⟩ ⟨new_succ, new_params⟩)) with hctx1
  have hlen1 : ctx1.blocks.length = ctx.blocks.length := by rw [hctx1]; rfl
  refine ⟨?_, ?_, ?_⟩
  · rw [hred, Block.successors, Block.get_terminator]
    rw [instrsOf_add_pred, instrsOf_remove_pred]
    have hins1 : ctx1.instrsOf b = ctx.instrsOf b := rfl
    rw [hins1, hlast]
    have hv1 : ctx1.valueDatum val
        = .Instruction (.ConditionalBranch cond_value
            ⟨new_succ, new_params⟩ ⟨new_succ, new_params⟩) := by
      rw [hctx1, valueDatum_setValueDatum, if_pos ⟨rfl, hvlen⟩]
    simp only [Option.some_bind, valueDatum_add_pred, valueDatum_remove_pred, hv1]
  · rw [hred, predsOf_add_pred_self _ _ _
      (by rw [blocks_length_remove_pred, hlen1]; exact hn)]
    exact Finset.mem_insert_self b _
  · intro hne
    rw [hred, predsOf_add_pred_of_ne _ _ _ _ (fun h => hne h.symm),
      predsOf_remove_pred_self _ _ _ (by rw [hlen1]; exact ho)]
    exact Finset.not_mem_erase b _

/-- Claim C3, witness: a three-block context; block 0 ends in a conditional
branch with both edges to block 1; the successor is replaced by block 2. -/
theorem C3_replace_successor_both_edges_witness :
    Block.successors ⟨0⟩
        (Block.replace_successor ⟨0⟩
          ⟨[⟨.Instruction (.ConditionalBranch ⟨9⟩ ⟨⟨1⟩, [⟨2⟩]⟩ ⟨⟨1⟩, [⟨3⟩]⟩)⟩],
            [⟨"e", ⟨0⟩, [⟨0⟩], [], ∅⟩, ⟨"t", ⟨0⟩, [], [], {⟨0⟩}⟩, ⟨"u", ⟨0⟩, [], [], ∅⟩], []⟩
          ⟨1⟩ ⟨2⟩ [⟨4⟩])
      = [⟨⟨2⟩, [⟨4⟩]⟩, ⟨⟨2⟩, [⟨4⟩]⟩] ∧
    (⟨0⟩ : Block) ∈ (Block.replace_successor ⟨0⟩
          ⟨[⟨.Instruction (.ConditionalBranch ⟨9⟩ ⟨⟨1⟩, [⟨2⟩]⟩ ⟨⟨1⟩, [⟨3⟩]⟩)⟩],
            [⟨"e", ⟨0⟩, [⟨0⟩], [], ∅⟩, ⟨"t", ⟨0⟩, [], [], {⟨0⟩}⟩, ⟨"u", ⟨0⟩, [], [], ∅⟩], []⟩
          ⟨1⟩ ⟨2⟩ [⟨4⟩]).predsOf ⟨2⟩ ∧
    (⟨0⟩ : Block) ∉ (Block.replace_successor ⟨0⟩
          ⟨[⟨.Instruction (.ConditionalBranch ⟨9⟩ ⟨⟨1⟩, [⟨2⟩]⟩ ⟨⟨1⟩, [⟨3⟩]⟩)⟩],
            [⟨"e", ⟨0⟩, [⟨0⟩], [], ∅⟩, ⟨"t", ⟨0⟩, [], [], {⟨0⟩}⟩, ⟨"u", ⟨0⟩, [], [], ∅⟩], []⟩
          ⟨1⟩ ⟨2⟩ [⟨4⟩]).predsOf ⟨1⟩ := by
  have h := C3_replace_successor_both_edges
    ⟨[⟨.Instruction (.ConditionalBranch ⟨9⟩ ⟨⟨1⟩, [⟨2⟩]⟩ ⟨⟨1⟩, [⟨3⟩]⟩)⟩],
      [⟨"e", ⟨0⟩, [⟨0⟩], [], ∅⟩, ⟨"t", ⟨0⟩, [], [], {⟨0⟩}⟩, ⟨"u", ⟨0⟩, [], [], ∅⟩], []⟩
    ⟨0⟩ ⟨1⟩ ⟨2⟩ ⟨0⟩ ⟨9⟩ [⟨2⟩] [⟨3⟩] [⟨4⟩] rfl rfl (by decide) (by decide) (by decide)
  exact ⟨h.1, h.2.1, h.2.2 (by decide)⟩

/- ---------------------------------------------------------------------- -/
/- Claim C6 groundwork                                                    -/
/- ---------------------------------------------------------------------- -/

theorem blockContent_push_new (ctx : Context) (c : BlockContent) :
    ({ ctx with blocks := ctx.blocks ++ [c] } : Context).blockContent ⟨ctx.blocks.length⟩ = c := by
  unfold Context.blockContent
  exact getD_append_self _ _ _

theorem blockContent_push_old (ctx : Context) (c : BlockContent) (t : Block)
    (h : t.idx < ctx.blocks.length) :
    ({ ctx with blocks := ctx.blocks ++ [c] } : Context).blockContent t = ctx.blockContent t := by
  unfold Context.blockContent
  exact getD_append_of_lt _ _ _ h

theorem getLast?_drop_of_lt {α : Type _} (l : List α) (k : Nat) (h : k < l.length) :
    (l.drop k).getLast? = l.getLast? := by
  induction k generalizing l with
  | zero => rfl
  | succ n ih =>
    cases l with
    | nil => simp at h
    | cons a t =>
      have ht : n < t.length := by simpa using h
      cases t with
      | nil => simp at ht
      | cons b u =>
        rw [List.drop_succ_cons, ih (b :: u) ht, List.getLast?_cons_cons]

/-- `migrateArg` only rewrites an argument value's datum and the new block's
`args` list; instruction lists, predecessor sets and arena sizes survive. -/
theorem migrateArg_preserves (c : Context) (nb : Block) (a : Value) (c' : Context)
    (h : migrateArg c nb a = some c') :
    (∀ t, c'.instrsOf t = c.instrsOf t) ∧ (∀ t, c'.predsOf t = c.predsOf t) ∧
      c'.blocks.length = c.blocks.length := by
  unfold migrateArg at h
  split at h
  · unfold Block.add_arg at h
    split at h
    · split at h
      · injection h with h
        subst h
        refine ⟨fun t => ?_, fun t => ?_, ?_⟩
        · rw [instrsOf_set_args]
          rfl
        · rw [predsOf_set_args]
          rfl
        · rw [blocks_length_setBlock]
          rfl
      · exact absurd h (by simp)
    all_goals exact absurd h (by simp)
  all_goals exact absurd h (by simp)

/-- `migrateArgs` preserves instruction lists, predecessor sets and arena
sizes. -/
theorem migrateArgs_preserves (l : List Value) : ∀ (c : Context) (nb : Block) (c' : Context),
    migrateArgs c nb l = some c' →
    (∀ t, c'.instrsOf t = c.instrsOf t) ∧ (∀ t, c'.predsOf t = c.predsOf t) ∧
      c'.blocks.length = c.blocks.length := by
  induction l with
  | nil =>
    intro c nb c' h
    injection h with h
    subst h
    exact ⟨fun _ => rfl, fun _ => rfl, rfl⟩
  | cons a rest ih =>
    intro c nb c' h
    unfold migrateArgs at h
    cases hone : migrateArg c nb a with
    | none => rw [hone] at h; exact absurd h (by simp)
    | some cmid =>
      rw [hone] at h
      simp only [Option.some_bind] at h
      obtain ⟨h1i, h1p, h1l⟩ := migrateArg_preserves c nb a cmid hone
      obtain ⟨h2i, h2p, h2l⟩ := ih cmid nb c' h
      exact ⟨fun t => (h2i t).trans (h1i t), fun t => (h2p t).trans (h1p t), h2l.trans h1l⟩

/-- The `replace_pred` fold of `split_at` leaves instruction lists, value data
and arena sizes unchanged. -/
theorem foldl_replace_pred_preserves (l : List Block) (b nb : Block) : ∀ (c : Context),
    (∀ t, (l.foldl (fun acc tb => tb.replace_pred acc b nb) c).instrsOf t = c.instrsOf t) ∧
    (∀ w, (l.foldl (fun acc tb => tb.replace_pred acc b nb) c).valueDatum w = c.valueDatum w) ∧
    (l.foldl (fun acc tb => tb.replace_pred acc b nb) c).blocks.length = c.blocks.length := by
  induction l with
  | nil => intro c; exact ⟨fun _ => rfl, fun _ => rfl, rfl⟩
  | cons s rest ih =>
    intro c
    simp only [List.foldl_cons]
    obtain ⟨hi, hv, hl⟩ := ih (s.replace_pred c b nb)
    refine ⟨fun t => ?_, fun w => ?_, ?_⟩
    · rw [hi t]
      unfold Block.replace_pred
      rw [instrsOf_add_pred, instrsOf_remove_pred]
    · rw [hv w]
      unfold Block.replace_pred
      rw [valueDatum_add_pred, valueDatum_remove_pred]
    · rw [hl]
      unfold Block.replace_pred
      rw [blocks_length_add_pred, blocks_length_remove_pred]

theorem instrsOf_setBlock_of_ne (ctx : Context) (b : Block) (c : BlockContent) (t : Block)
    (h : b.idx ≠ t.idx) : (ctx.setBlock b c).instrsOf t = ctx.instrsOf t := by
  unfold Context.instrsOf
  rw [blockContent_setBlock, if_neg]
  rintro ⟨h1, -⟩
  exact h h1

/-- What `create_block_before` guarantees about its result: the new handle is
fresh, existing blocks and values are untouched, the new block is empty. -/
theorem create_block_before_spec (f : Function) (ctx : Context) (other : Block)
    (label : Option String) (res : Context × Block)
    (h : Function.create_block_before f ctx other label = some res) :
    res.2 = ⟨ctx.blocks.length⟩ ∧
    (∀ t, t.idx < ctx.blocks.length → res.1.blockContent t = ctx.blockContent t) ∧
    res.1.blockContent ⟨ctx.blocks.length⟩
      = ⟨Function.get_unique_label f ctx label, f, [], [], ∅⟩ ∧
    (∀ w, res.1.valueDatum w = ctx.valueDatum w) ∧
    res.1.blocks.length = ctx.blocks.length + 1 := by
  unfold Function.create_block_before at h
  rcases Option.map_eq_some'.mp h with ⟨bidx, hidx, happ⟩
  simp only [Block.new] at happ
  subst happ
  refine ⟨rfl, fun t ht => ?_, ?_, fun w => rfl, ?_⟩
  · rw [blockContent_setFunction]
    exact blockContent_push_old ctx _ t ht
  · rw [blockContent_setFunction]
    exact blockContent_push_new ctx _
  · simp [Context.setFunction]

/-- What `create_block_after` guarantees about its result: the new handle is
fresh, existing blocks and values are untouched, the new block is empty. -/
theorem create_block_after_spec (f : Function) (ctx : Context) (other : Block)
    (label : Option String) (res : Context × Block)
    (h : Function.create_block_after f ctx other label = some res) :
    res.2 = ⟨ctx.blocks.length⟩ ∧
    (∀ t, t.idx < ctx.blocks.length → res.1.blockContent t = ctx.blockContent t) ∧
    res.1.blockContent ⟨ctx.blocks.length⟩
      = ⟨Function.get_unique_label f ctx label, f, [], [], ∅⟩ ∧
    (∀ w, res.1.valueDatum w = ctx.valueDatum w) ∧
    res.1.blocks.length = ctx.blocks.length + 1 := by
  unfold Function.create_block_after at h
  rcases Option.map_eq_some'.mp h with ⟨bidx, hidx, happ⟩
  simp only [Block.new] at happ
  subst happ
  refine ⟨rfl, fun t ht => ?_, ?_, fun w => rfl, ?_⟩
  · rw [blockContent_setFunction]
    exact blockContent_push_old ctx _ t ht
  · rw [blockContent_setFunction]
    exact blockContent_push_new ctx _
  · simp [Context.setFunction]

/-- After the `replace_pred` fold, the new block sits in the predecessor set of
every listed successor (and of any block that already had it). -/
theorem foldl_replace_pred_mem (b nb : Block) (l : List Block) :
    ∀ (c : Context) (s : Block), s.idx < c.blocks.length →
    (s ∈ l ∨ nb ∈ c.predsOf s) →
    nb ∈ (l.foldl (fun acc tb => tb.replace_pred acc b nb) c).predsOf s := by
  induction l with
  | nil =>
    intro c s _ hmem
    rcases hmem with hmem | hmem
    · exact absurd hmem (List.not_mem_nil s)
    · exact hmem
  | cons x rest ih =>
    intro c s hslen hmem
    simp only [List.foldl_cons]
    apply ih (x.replace_pred c b nb) s
    · unfold Block.replace_pred
      rw [blocks_length_add_pred, blocks_length_remove_pred]
      exact hslen
    · rcases hmem with hmem | hmem
      · rcases List.mem_cons.mp hmem with heq | hrest
        · subst heq
          right
          unfold Block.replace_pred
          rw [predsOf_add_pred_self _ _ _ (by rw [blocks_length_remove_pred]; exact hslen)]
          exact Finset.mem_insert_self nb _
        · left
          exact hrest
      · right
        unfold Block.replace_pred
        by_cases hxs : x = s
        · subst hxs
          rw [predsOf_add_pred_self _ _ _ (by rw [blocks_length_remove_pred]; exact hslen)]
          exact Finset.mem_insert_self nb _
        · rw [predsOf_add_pred_of_ne _ _ _ _ hxs, predsOf_remove_pred_of_ne _ _ _ _ hxs]
          exact hmem

/-- The successor blocks collected by `split_at` from a terminator coincide
with the blocks of `successors` read from the same terminator. -/
theorem splitSuccBlocks_eq (b : Block) (ctx : Context) :
    splitSuccBlocks (b.get_terminator ctx) = (b.successors ctx).map (fun br => br.block) := by
  unfold splitSuccBlocks Block.successors
  cases b.get_terminator ctx with
  | none => rfl
  | some i => cases i <;> rfl

/- ---------------------------------------------------------------------- -/
/- Claim C6                                                               -/
/- ---------------------------------------------------------------------- -/

/-- Claim C6 (confirmed): for a block `b` with `n` instructions and any split
index `k ≤ n` on which `split_at` succeeds, the concatenation of the two
halves' instruction lists reproduces `b`'s original instruction list, and —
assuming the predecessor-mirror invariant held (every successor of `b`'s
terminator listed `b` among its predecessors) — each such successor afterwards
lists whichever half holds the terminator (the suffix when `k < n`, otherwise
the prefix) among its predecessors. -/
theorem C6_split_at_round_trip (ctx : Context) (b : Block) (k : Nat)
    (ctx2 : Context) (b1 b2 : Block)
    (h : b.split_at ctx k = some (ctx2, b1, b2))
    (hb : b.idx < ctx.blocks.length)
    (hmirror : ∀ s ∈ (b.successors ctx).map (fun br => br.block), b ∈ ctx.predsOf s)
    (hslen : ∀ s ∈ (b.successors ctx).map (fun br => br.block), s.idx < ctx.blocks.length) :
    ctx2.instrsOf b1 ++ ctx2.instrsOf b2 = ctx.instrsOf b ∧
    (∀ s ∈ (b.successors ctx).map (fun br => br.block),
      (if k < (ctx.instrsOf b).length then b2 else b1) ∈ ctx2.predsOf s) := by
  unfold Block.split_at at h
  by_cases hk : k = 0
  · rw [if_pos hk] at h
    rcases Option.bind_eq_some.mp h with ⟨res, hres, hmap⟩
    obtain ⟨hfresh, hold, hnew, hvals, hlen⟩ := create_block_before_spec _ _ _ _ _ hres
    simp only [] at hmap
    rcases Option.map_eq_some'.mp hmap with ⟨ctxM, hm, heq⟩
    obtain ⟨hmi, hmp, hml⟩ := migrateArgs_preserves _ _ _ _ hm
    injection heq with hA hBC
    injection hBC with hB hC
    subst hA
    subst hB
    subst hC
    subst hk
    constructor
    · simp only [instrsOf_set_args, hmi]
      have h1 : res.1.instrsOf res.2 = [] := by
        rw [hfresh]
        show (res.1.blockContent ⟨ctx.blocks.length⟩).instructions = []
        rw [hnew]
      have h2b : res.1.instrsOf b = ctx.instrsOf b := by
        show (res.1.blockContent b).instructions = _
        rw [hold b hb]
        rfl
      rw [h1, h2b]
      rfl
    · intro s hs
      by_cases hn : 0 < (ctx.instrsOf b).length
      · rw [if_pos hn]
        rw [predsOf_set_args]
        rw [hmp s]
        have hps : res.1.predsOf s = ctx.predsOf s := by
          show (res.1.blockContent s).preds = _
          rw [hold s (hslen s hs)]
          rfl
        rw [hps]
        exact hmirror s hs
      · exfalso
        have hnil : ctx.instrsOf b = [] := List.length_eq_zero.mp (Nat.eq_zero_of_not_pos hn)
        unfold Block.successors Block.get_terminator at hs
        rw [hnil] at hs
        simp at hs
  · rw [if_neg hk] at h
    by_cases hkn : k ≤ (ctx.instrsOf b).length
    · rw [if_pos hkn] at h
      rcases Option.map_eq_some'.mp h with ⟨res, hres, heq⟩
      obtain ⟨hfresh, hold, hnew, hvals, hlen⟩ := create_block_after_spec _ _ _ _ _ hres
      simp only [] at heq
      set ctxA : Context :=
        res.1.setBlock b
          { res.1.blockContent b with instructions := (res.1.instrsOf b).take k } with hctxA
      set ctxB : Context :=
        ctxA.setBlock res.2
          { ctxA.blockContent res.2 with
            instructions := ctxA.instrsOf res.2 ++ (res.1.instrsOf b).drop k } with hctxB
      injection heq with hA hBC
      injection hBC with hB hC
      subst hA
      subst hB
      subst hC
      have hins1 : res.1.instrsOf b = ctx.instrsOf b := by
        show (res.1.blockContent b).instructions = _
        rw [hold b hb]
        rfl
      have hbne : b.idx ≠ res.2.idx := by
        rw [hfresh]
        exact Nat.ne_of_lt hb
      have hlenA : ctxA.blocks.length = ctx.blocks.length + 1 := by
        rw [hctxA, blocks_length_setBlock, hlen]
      have hlenB : ctxB.blocks.length = ctx.blocks.length + 1 := by
        rw [hctxB, blocks_length_setBlock, hlenA]
      have hAnb : ctxA.instrsOf res.2 = [] := by
        rw [hctxA, instrsOf_setBlock_of_ne _ _ _ _ hbne, hfresh]
        show (res.1.blockContent ⟨ctx.blocks.length⟩).instructions = []
        rw [hnew]
      have hBnb : ctxB.instrsOf res.2 = (ctx.instrsOf b).drop k := by
        rw [hctxB, instrsOf_setBlock_self _ _ _ (by rw [hfresh, hlenA]; exact Nat.lt_succ_self _)]
        show ctxA.instrsOf res.2 ++ (res.1.instrsOf b).drop k = _
        rw [hAnb, hins1]
        exact List.nil_append _
      have hBb : ctxB.instrsOf b = (ctx.instrsOf b).take k := by
        rw [hctxB, instrsOf_setBlock_of_ne _ _ _ _ (fun hh => hbne hh.symm), hctxA,
          instrsOf_setBlock_self _ _ _ (by rw [hlen]; exact Nat.lt_succ_of_lt hb)]
        show (res.1.instrsOf b).take k = _
        rw [hins1]
      have hvdB : ∀ w, ctxB.valueDatum w = ctx.valueDatum w := by
        intro w
        rw [hctxB, valueDatum_setBlock, hctxA, valueDatum_setBlock, hvals w]
      have hBpreds : ∀ s, s.idx < ctx.blocks.length → ctxB.predsOf s = ctx.predsOf s := by
        intro s hsl
        rw [hctxB, predsOf_set_instructions, hctxA, predsOf_set_instructions]
        show (res.1.blockContent s).preds = _
        rw [hold s hsl]
        rfl
      constructor
      · rw [(foldl_replace_pred_preserves _ b res.2 ctxB).1 b,
          (foldl_replace_pred_preserves _ b res.2 ctxB).1 res.2, hBb, hBnb]
        exact List.take_append_drop k _
      · intro s hs
        by_cases hlt : k < (ctx.instrsOf b).length
        · rw [if_pos hlt]
          have hgt : Block.get_terminator res.2 ctxB = b.get_terminator ctx := by
            unfold Block.get_terminator
            rw [hBnb, getLast?_drop_of_lt _ _ hlt]
            exact congrArg _ (funext fun val => by rw [hvdB val])
          have hTO : splitSuccBlocks (Block.get_terminator res.2 ctxB)
              = (b.successors ctx).map (fun br => br.block) := by
            rw [hgt]
            exact splitSuccBlocks_eq b ctx
          rw [hTO]
          exact foldl_replace_pred_mem b res.2 _ ctxB s
            (by rw [hlenB]; exact Nat.lt_succ_of_lt (hslen s hs)) (Or.inl hs)
        · rw [if_neg hlt]
          have hdrop : (ctx.instrsOf b).drop k = [] :=
            List.drop_eq_nil_of_le (Nat.le_of_not_lt hlt)
          have hgtn : Block.get_terminator res.2 ctxB = none := by
            unfold Block.get_terminator
            rw [hBnb, hdrop]
            rfl
          rw [hgtn]
          show b ∈ ((splitSuccBlocks none).foldl
            (fun c to_block => to_block.replace_pred c b res.2) ctxB).predsOf s
          simp only [splitSuccBlocks, List.foldl_nil]
          rw [hBpreds s (hslen s hs)]
          exact hmirror s hs
    · rw [if_neg hkn] at h
      exact absurd h (by simp)

/-- A concrete two-instruction block (`Nop; Ret`) inside a one-function
context, used to exercise `split_at`. -/
def ctxC6 : Context :=
  ⟨[⟨.Instruction .Nop⟩, ⟨.Instruction (.Ret ⟨0⟩ .Unit)⟩],
   [⟨"e", ⟨0⟩, [⟨0⟩, ⟨1⟩], [], ∅⟩],
   [⟨"f", [⟨0⟩], .Unit⟩]⟩

/-- The context produced by `ctxC6.split_at 1`: the prefix keeps `Nop`, the
fresh suffix block holds the `Ret`. -/
def ctxC6R : Context :=
  ⟨[⟨.Instruction .Nop⟩, ⟨.Instruction (.Ret ⟨0⟩ .Unit)⟩],
   [⟨"e", ⟨0⟩, [⟨0⟩], [], ∅⟩, ⟨"block", ⟨0⟩, [⟨1⟩], [], ∅⟩],
   [⟨"f", [⟨0⟩, ⟨1⟩], .Unit⟩]⟩

/-- Claim C6, witness: splitting the concrete `Nop; Ret` block at index 1
reproduces the original instruction sequence from the two halves. -/
theorem C6_split_at_round_trip_witness :
    ctxC6R.instrsOf ⟨0⟩ ++ ctxC6R.instrsOf ⟨1⟩ = ctxC6.instrsOf ⟨0⟩ :=
  (C6_split_at_round_trip ctxC6 ⟨0⟩ 1 ctxC6R ⟨0⟩ ⟨1⟩ rfl (by decide)
    (fun s hs => nomatch hs) (fun s hs => nomatch hs)).1

/- ---------------------------------------------------------------------- -/
/- Claim C4                                                               -/
/- ---------------------------------------------------------------------- -/

mutual
/-- Definition following the claim's words (spec §3/§8.5): two constants are
equivalent iff their types are equal and their `ConstantValue`s match
structurally — recursively through array and struct children, which in
particular requires equal child counts — except that the result is `false`
whenever either side's value is `Undef`.  Compared against `Constant.eq`,
which was translated from the source. -/
def Constant.specEq : Constant → Constant → Bool
  | .mk ty1 v1, .mk ty2 v2 => tyEq ty1 ty2 && constantValueSpecMatch v1 v2

/-- Structural matching of `ConstantValue`s as the claim words it. -/
def constantValueSpecMatch : ConstantValue → ConstantValue → Bool
  | .Undef, _ => false
  | _, .Undef => false
  | .Unit, .Unit => true
  | .Bool l, .Bool r => l == r
  | .Uint l, .Uint r => l == r
  | .B256 l, .B256 r => l == r
  | .String l, .String r => l == r
  | .Array l, .Array r => l.length == r.length && constantSpecZip l r
  | .Struct l, .Struct r => l.length == r.length && constantSpecZip l r
  | _, _ => false

/-- Pointwise structural matching of child lists. -/
def constantSpecZip : List Constant → List Constant → Bool
  | a :: as_, b :: bs => Constant.specEq a b && constantSpecZip as_ bs
  | _, _ => true
end

mutual
/-- Well-formedness of a constant: its value's shape is consistent with its
type, exactly as guaranteed by the `Constant::new_*` constructors in
`constant.rs` (`new_string` takes the length from the bytes, `new_array` the
element type and count from the elements, `new_struct` the field types from
the fields). -/
def Constant.wf : Constant → Bool
  | .mk ty v => constantValueWfAt ty v

/-- Shape-consistency of a `ConstantValue` at a given type. -/
def constantValueWfAt : Ty → ConstantValue → Bool
  | _, .Undef => true
  | ty, .Unit => match ty with | .Unit => true | _ => false
  | ty, .Bool _ => match ty with | .Bool => true | _ => false
  | ty, .Uint _ => match ty with | .Uint _ => true | _ => false
  | ty, .B256 _ => match ty with | .B256 => true | _ => false
  | ty, .String s => match ty with | .StringTy len => len == s.length | _ => false
  | ty, .Array elems =>
    match ty with
    | .Array elemTy count => count == elems.length && constantsWfElems elemTy elems
    | _ => false
  | ty, .Struct fields =>
    match ty with
    | .Struct ftys => constantsWfFields ftys fields
    | _ => false

/-- Every array element has the declared element type and is well-formed. -/
def constantsWfElems (elemTy : Ty) : List Constant → Bool
  | [] => true
  | c :: cs => tyEq elemTy c.ty && c.wf && constantsWfElems elemTy cs

/-- Struct fields match the declared field types pointwise. -/
def constantsWfFields : List Ty → List Constant → Bool
  | [], [] => true
  | fty :: ftys, c :: cs => tyEq fty c.ty && c.wf && constantsWfFields ftys cs
  | _, _ => false
end

theorem tyListEq_length : ∀ (l1 l2 : List Ty), tyListEq l1 l2 = true → l1.length = l2.length := by
  intro l1
  induction l1 with
  | nil =>
    intro l2 h
    cases l2 with
    | nil => rfl
    | cons b bs => simp [tyListEq] at h
  | cons a as_ ih =>
    intro l2 h
    cases l2 with
    | nil => simp [tyListEq] at h
    | cons b bs =>
      simp only [tyListEq, Bool.and_eq_true] at h
      simp [ih bs h.2]

theorem constantsWfElems_mem (elemTy : Ty) :
    ∀ (l : List Constant), constantsWfElems elemTy l = true → ∀ c ∈ l, c.wf = true := by
  intro l
  induction l with
  | nil => intro _ c hc; exact absurd hc (List.not_mem_nil c)
  | cons a as_ ih =>
    intro h c hc
    simp only [constantsWfElems, Bool.and_eq_true] at h
    rcases List.mem_cons.mp hc with rfl | hc
    · exact h.1.2
    · exact ih h.2 c hc

theorem constantsWfFields_spec :
    ∀ (ftys : List Ty) (l : List Constant), constantsWfFields ftys l = true →
      ftys.length = l.length ∧ ∀ c ∈ l, c.wf = true := by
  intro ftys
  induction ftys with
  | nil =>
    intro l h
    cases l with
    | nil => exact ⟨rfl, fun c hc => absurd hc (List.not_mem_nil c)⟩
    | cons b bs => simp [constantsWfFields] at h
  | cons a as_ ih =>
    intro l h
    cases l with
    | nil => simp [constantsWfFields] at h
    | cons b bs =>
      simp only [constantsWfFields, Bool.and_eq_true] at h
      obtain ⟨hlen, hmem⟩ := ih bs h.2
      refine ⟨by simp [hlen], fun c hc => ?_⟩
      rcases List.mem_cons.mp hc with rfl | hc
      · exact h.1.2
      · exact hmem c hc

mutual
/-- On well-formed constants, the source comparison and the claim's structural
predicate agree. -/
theorem constantEq_spec_aux (c1 c2 : Constant) (h1 : c1.wf = true) (h2 : c2.wf = true) :
    Constant.eq c1 c2 = Constant.specEq c1 c2 := by
  cases c1 with
  | mk t1 v1 =>
    cases c2 with
    | mk t2 v2 =>
      rw [Constant.eq, Constant.specEq]
      cases ht : tyEq t1 t2 with
      | false => rw [Bool.false_and, Bool.false_and]
      | true =>
        rw [Bool.true_and, Bool.true_and]
        rw [Constant.wf] at h1 h2
        exact constantValueMatch_spec_aux t1 t2 v1 v2 h1 h2 ht
termination_by sizeOf c1

/-- Arm-by-arm agreement of the two value matchers, given shape-consistency
and type equality. -/
theorem constantValueMatch_spec_aux (t1 t2 : Ty) (v1 v2 : ConstantValue)
    (h1 : constantValueWfAt t1 v1 = true) (h2 : constantValueWfAt t2 v2 = true)
    (ht : tyEq t1 t2 = true) :
    constantValueMatch v1 v2 = constantValueSpecMatch v1 v2 := by
  cases v1
  case Array l1 =>
    cases v2
    case Array l2 =>
      simp only [constantValueMatch, constantValueSpecMatch]
      cases t1
      case Array e1 n1 =>
        cases t2
        case Array e2 n2 =>
          simp only [constantValueWfAt, Bool.and_eq_true, beq_iff_eq] at h1 h2
          simp only [tyEq, Bool.and_eq_true, beq_iff_eq] at ht
          have hlen : l1.length = l2.length := by
            rw [← h1.1, ← h2.1]
            exact ht.2
          rw [constantZip_spec_aux l1 l2 hlen
            (constantsWfElems_mem e1 l1 h1.2) (constantsWfElems_mem e2 l2 h2.2)]
          simp [hlen]
        all_goals exact absurd h2 (by simp [constantValueWfAt])
      all_goals exact absurd h1 (by simp [constantValueWfAt])
    all_goals simp [constantValueMatch, constantValueSpecMatch]
  case Struct l1 =>
    cases v2
    case Struct l2 =>
      simp only [constantValueMatch, constantValueSpecMatch]
      cases t1
      case Struct fts1 =>
        cases t2
        case Struct fts2 =>
          simp only [constantValueWfAt] at h1 h2
          simp only [tyEq] at ht
          obtain ⟨hl1, hm1⟩ := constantsWfFields_spec fts1 l1 h1
          obtain ⟨hl2, hm2⟩ := constantsWfFields_spec fts2 l2 h2
          have hlen : l1.length = l2.length := by
            rw [← hl1, ← hl2]
            exact tyListEq_length fts1 fts2 ht
          rw [constantZip_spec_aux l1 l2 hlen hm1 hm2]
          simp [hlen]
        all_goals exact absurd h2 (by simp [constantValueWfAt])
      all_goals exact absurd h1 (by simp [constantValueWfAt])
    all_goals simp [constantValueMatch, constantValueSpecMatch]
  all_goals cases v2 <;> simp [constantValueMatch, constantValueSpecMatch]
termination_by sizeOf v1

/-- Pointwise agreement of the zipped child comparisons on equal-length,
well-formed child lists. -/
theorem constantZip_spec_aux (l1 l2 : List Constant) (hlen : l1.length = l2.length)
    (hw1 : ∀ c ∈ l1, c.wf = true) (hw2 : ∀ c ∈ l2, c.wf = true) :
    constantZipEq l1 l2 = constantSpecZip l1 l2 := by
  cases l1 with
  | nil =>
    cases l2 with
    | nil => rfl
    | cons b bs => simp at hlen
  | cons a as_ =>
    cases l2 with
    | nil => simp at hlen
    | cons b bs =>
      rw [constantZipEq, constantSpecZip]
      rw [constantEq_spec_aux a b (hw1 a (by simp)) (hw2 b (by simp))]
      rw [constantZip_spec_aux as_ bs (by simpa using hlen)
        (fun c hc => hw1 c (by simp [hc])) (fun c hc => hw2 c (by simp [hc]))]
termination_by sizeOf l1
end

/-- Claim C4, counterexample: two constants of equal (`Unit`) type whose
`Array` values have different child counts.  `Constant::eq` compares children
over `zip`, which truncates to the shorter list, so the source returns `true`,
while a structural match of the `ConstantValue`s (which requires equal child
counts) is `false` — refuting the claimed equivalence for arbitrary
constants. -/
theorem C4_constant_eq_counterexample :
    Constant.eq (.mk .Unit (.Array [])) (.mk .Unit (.Array [.mk .Unit .Unit])) = true ∧
    Constant.specEq (.mk .Unit (.Array [])) (.mk .Unit (.Array [.mk .Unit .Unit])) = false := by
  constructor
  · rw [Constant.eq]
    simp [constantValueMatch, constantZipEq, tyEq]
  · rw [Constant.specEq]
    simp [constantValueSpecMatch]

/-- Claim C4 (corrected): on well-formed constants — value shape consistent
with the type, as every constant built by the `constant.rs` constructors is —
`Constant::eq` holds iff the types are equal and the `ConstantValue`s match
structurally (recursively through array and struct children), except that the
result is `false` whenever either side's value is `Undef`; in particular two
`Undef` constants of the same type are never equal.  For ill-formed constants
the equivalence fails, because the source compares children over a truncating
`zip` (see the counterexample). -/
theorem C4_constant_eq (c1 c2 : Constant) (h1 : c1.wf = true) (h2 : c2.wf = true) :
    (Constant.eq c1 c2 = Constant.specEq c1 c2) ∧
    (∀ (t1 t2 : Ty) (v2 : ConstantValue), Constant.eq (.mk t1 .Undef) (.mk t2 v2) = false) ∧
    (∀ (t1 t2 : Ty) (v1 : ConstantValue), Constant.eq (.mk t1 v1) (.mk t2 .Undef) = false) := by
  refine ⟨constantEq_spec_aux c1 c2 h1 h2, ?_, ?_⟩
  · intro t1 t2 v2
    rw [Constant.eq]
    cases v2 <;> simp [constantValueMatch]
  · intro t1 t2 v1
    rw [Constant.eq]
    cases v1 <;> simp [constantValueMatch]

/-- Claim C4, witness: the corrected theorem applied to two `Undef` constants
of type `bool`; both the source comparison and the structural predicate say
`false`. -/
theorem C4_constant_eq_witness :
    Constant.eq (.mk .Bool .Undef) (.mk .Bool .Undef)
      = Constant.specEq (.mk .Bool .Undef) (.mk .Bool .Undef) :=
  (C4_constant_eq (.mk .Bool .Undef) (.mk .Bool .Undef)
    (by rw [Constant.wf]; rfl) (by rw [Constant.wf]; rfl)).1

end SwayIR
